import Mathlib

/-!
Verification of the package-linking engine: dependency-tree construction with
cycle cutting, per-occurrence peer-dependency resolution, layout assignment,
filesystem linking, and the uninstall no-op path.

The definitions below are shallow embeddings of the TypeScript sources
(`resolvePeers.ts`, `link/index.ts`, `api/uninstall.ts`).  JavaScript objects
used as string-keyed dictionaries are embedded as association lists where a
later binding for the same key wins (mirroring mutation / `Object.assign` /
`R.merge` semantics); lookups therefore take the last matching binding.
-/

namespace PnpmLink

/-- Lookup in an association list where the *last* binding for a key wins.
This mirrors a JavaScript object built by successive assignments. -/
def lookupLast {α : Type} : List (String × α) → String → Option α
  | [], _ => none
  | (k', v) :: rest, k =>
    match lookupLast rest k with
    | some v' => some v'
    | none => if k' = k then some v else none

/-- `Array.prototype.join('/')` on a list of strings. -/
def joinSlash : List String → String
  | [] => ""
  | [x] => x
  | x :: rest => x ++ "/" ++ joinSlash rest

/-- Node's `path.join`, restricted to segments that are already normalized
(no `.`/`..`, no leading or trailing separators): empty segments are dropped
and the rest are joined with `/`; with no nonempty segment the result is `"."`. -/
def pathJoin (parts : List String) : String :=
  let ps := parts.filter (fun p => p != "")
  if ps.isEmpty then "." else joinSlash ps

/-- `R.aperture 2`: the list of adjacent pairs of a list. -/
def aperture2 {α : Type} (l : List α) : List (α × α) :=
  l.zip l.tail

/-- Manifest fields of a package used by this subsystem (`Package`).
Optional manifest fields are `Option`s; in JavaScript an absent field is
`undefined` (falsy) while a present array/object is truthy. -/
structure Pkg where
  name : String
  version : String
  peerDependencies : Option (List (String × String))
  bundledDependencies : Option (List String)
  bundleDependencies : Option (List String)
  deriving DecidableEq

/-- `LinkedPackage` (input record of the peer resolver).
`fetchingFiles` is a `Promise<boolean>` in the source; we embed the boolean
value it resolves to (whether the content was freshly fetched). -/
structure LinkedPackage where
  id : String
  pkg : Pkg
  localLocation : String
  path : String
  fetchingFiles : Bool
  dependencies : List String
  deriving DecidableEq

/-- `LinkedPackagesMap`: package id → linked package. -/
abbrev LinkedPackagesMap := List (String × LinkedPackage)

/-- `DependencyTree` node (keyed by keypath id). -/
structure DependencyTree where
  id : String
  name : String
  version : String
  peerDependencies : List (String × String)
  hasBundledDependencies : Bool
  fetchingFiles : Bool
  localLocation : String
  path : String
  keypathId : String
  children : List String
  depth : Nat
  deriving DecidableEq

/-- The mutable `treeMap` accumulator: keypath id → tree node (last write wins). -/
abbrev TreeMap := List (String × DependencyTree)

/-- Errors of the embedded computation: `fuelExhausted` signals that the
recursion-depth budget ran out (the JavaScript original recurses without a
budget), and `missingPkg` models the crash when `R.props` yields `undefined`
for an id absent from the supplied map (a data-integrity failure). -/
inductive BuildErr where
  | fuelExhausted
  | missingPkg (id : String)
  deriving DecidableEq

/-- `getNonCircularDependencies`: drop a dependency id when the pair
`(parent id, dependency id)` already occurs as an adjacent pair in the
(ancestor) keypath. -/
def getNonCircularDependencies (parentId : String) (dependencyIds : List String)
    (keypath : List String) : List String :=
  let relations := aperture2 keypath
  dependencyIds.filter (fun depId => !(relations.contains (parentId, depId)))

/-- The tree node recorded for a package occurrence (the object literal of
lines 55–67 of the source). -/
def mkNode (pkg : LinkedPackage) (keypathId : String) (children : List String)
    (depth : Nat) : DependencyTree :=
  { id := pkg.id
    name := pkg.pkg.name
    version := pkg.pkg.version
    peerDependencies := pkg.pkg.peerDependencies.getD []
    hasBundledDependencies :=
      pkg.pkg.bundledDependencies.isSome || pkg.pkg.bundleDependencies.isSome
    fetchingFiles := pkg.fetchingFiles
    localLocation := pkg.localLocation
    path := pkg.path
    keypathId := keypathId
    children := children
    depth := depth }

/-- One level of `createTree`: process the package ids of a sibling list
left to right, descending into each package's non-circular dependencies via
`child` (which is `createTree` at one less recursion budget), recording each
node in the accumulator after its descendants, exactly in the source's
evaluation order. -/
def createTreeGo (pkgsMap : LinkedPackagesMap)
    (child : List String → List String → TreeMap → Except BuildErr (TreeMap × List String)) :
    List String → List String → TreeMap → Except BuildErr (TreeMap × List String)
  | [], _, treeMap => .ok (treeMap, [])
  | pkgId :: restIds, keypath, treeMap =>
    match lookupLast pkgsMap pkgId with
    | none => .error (.missingPkg pkgId)
    | some pkg =>
      let nonCircularDeps := getNonCircularDependencies pkg.id pkg.dependencies keypath
      let newKeypath := keypath ++ [pkg.id]
      let keypathId := joinSlash newKeypath
      match child nonCircularDeps newKeypath treeMap with
      | .error e => .error e
      | .ok (treeMap1, children) =>
        match createTreeGo pkgsMap child restIds keypath
            (treeMap1 ++ [(keypathId, mkNode pkg keypathId children keypath.length)]) with
        | .error e => .error e
        | .ok (treeMap2, restKeypathIds) => .ok (treeMap2, keypathId :: restKeypathIds)

/-- `createTree`: recursively descend from the given package ids, recording a
node per keypath id.  `fuel` bounds the recursion depth (the JavaScript
original recurses without a budget; `treeFuel` below always suffices). -/
def createTree (pkgsMap : LinkedPackagesMap) :
    Nat → List String → List String → TreeMap → Except BuildErr (TreeMap × List String)
  | 0, _, _, _ => .error .fuelExhausted
  | fuel + 1, pkgIds, keypath, treeMap =>
    createTreeGo pkgsMap (createTree pkgsMap fuel) pkgIds keypath treeMap

/-- Depth budget that always suffices for `createTree` (proved below):
along any descent the adjacent ancestor pairs repeat at most twice, so the
keypath length never exceeds `2 * n^2 + 1` for `n` distinct package ids. -/
def treeFuel (pkgsMap : LinkedPackagesMap) : Nat :=
  2 * pkgsMap.length ^ 2 + 2

/-- `ResolvedDependencyTree`: a tree node augmented with layout fields. -/
structure ResolvedDependencyTree where
  name : String
  hasBundledDependencies : Bool
  path : String
  modules : String
  peerModules : Option String
  fetchingFiles : Bool
  hardlinkedLocation : String
  children : List String
  resolvedPeers : List String
  depth : Nat
  id : String
  deriving DecidableEq

/-- The resolved map, as the ordered list of entries produced by the
`R.reduce(R.merge, …)` chain; a later entry for the same key wins. -/
abbrev ResolvedTreeMap := List (String × ResolvedDependencyTree)

/-- The two non-fatal warnings `resolvePeers` logs. -/
inductive Warning where
  | peerNotInstalled (pkgId peerName peerVersionRange : String)
  | peerVersionMismatch (pkgId peerName peerVersionRange version : String)
  deriving DecidableEq

/-- `.filter(Boolean)` applied to a list of `string | null` values: drops
`null` and also the empty string (both are falsy in JavaScript). -/
def jsFilterBoolean (xs : List (Option String)) : List String :=
  xs.filterMap (fun x =>
    match x with
    | none => none
    | some s => if s = "" then none else some s)

/-- `resolvePeers`: for each declared peer dependency, look its name up in the
parent scope; a missing peer logs a warning and yields `null`, a found peer
yields its keypath id (logging a warning when its version does not satisfy the
declared range).  `satisfies` stands for the external `semver.satisfies`.
The warnings the source sends to the logger are returned as a list. -/
def resolvePeers (satisfies : String → String → Bool)
    (peerDependencies : List (String × String)) (pkgId : String)
    (parentPkgs : String → Option DependencyTree) : List String × List Warning :=
  let mapped := peerDependencies.map (fun pd =>
    match parentPkgs pd.1 with
    | none => ((none : Option String), [Warning.peerNotInstalled pkgId pd.1 pd.2])
    | some resolved =>
      (some resolved.keypathId,
       if satisfies resolved.version pd.2 then []
       else [Warning.peerVersionMismatch pkgId pd.1 pd.2 resolved.version]))
  (jsFilterBoolean (mapped.map Prod.fst), mapped.flatMap Prod.snd)

/-- `toPkgByName`: package name → tree node; `R.fromPairs` keeps the last
pair for a repeated name. -/
def toPkgByName (pkgs : List DependencyTree) : String → Option DependencyTree :=
  fun n => (pkgs.filter (fun p => p.name == n)).getLast?

/-- The `Object.assign({}, parentPkgs, {[name]: node}, toPkgByName children)`
scope overlay: children shadow the node itself, which shadows the
ancestor scope. -/
def scopeExtend (parentPkgs : String → Option DependencyTree)
    (self : DependencyTree) (childNodes : List DependencyTree) :
    String → Option DependencyTree :=
  fun n =>
    match toPkgByName childNodes n with
    | some c => some c
    | none => if self.name = n then some self else parentPkgs n

/-- `'s'.replace('/', '!')` on the character list: JavaScript's
`String.prototype.replace` with a string pattern replaces only the first
occurrence. -/
def replaceFirstSlashChars : List Char → List Char
  | [] => []
  | c :: rest => if c = '/' then '!' :: rest else c :: replaceFirstSlashChars rest

/-- `peer.name.replace('/', '!')`. -/
def jsReplaceSlashBang (s : String) : String :=
  ⟨replaceFirstSlashChars s.data⟩

/-- Code-unit lexicographic `≤` on character lists, the order JavaScript's
default `Array.prototype.sort` uses on strings. -/
def leChars : List Char → List Char → Bool
  | [], _ => true
  | _ :: _, [] => false
  | a :: as, b :: bs => if a < b then true else if a = b then leChars as bs else false

/-- `≤` on strings by code units. -/
def strLe (a b : String) : Bool := leChars a.data b.data

/-- JavaScript's default `Array.prototype.sort` on strings (insertion sort is
extensionally the same: some stable comparison sort by `strLe`). -/
def sortStrings (l : List String) : List String :=
  l.insertionSort (fun a b => strLe a b = true)

/-- `Array.prototype.join('+')`. -/
def joinPlus : List String → String
  | [] => ""
  | [x] => x
  | x :: rest => x ++ "+" ++ joinPlus rest

/-- `createPeersFolderName`: `name@version` tokens (first `/` replaced by `!`),
sorted, joined with `+`. -/
def createPeersFolderName (peers : List DependencyTree) : String :=
  joinPlus (sortStrings (peers.map (fun peer =>
    jsReplaceSlashBang peer.name ++ "@" ++ peer.version)))

/-- `R.props` over an association list, failing (as the source would crash)
when a key is absent. -/
def propsE {α : Type} (m : List (String × α)) : List String → Except BuildErr (List α)
  | [] => .ok []
  | k :: rest =>
    match lookupLast m k with
    | none => .error (.missingPkg k)
    | some v =>
      match propsE m rest with
      | .error e => .error e
      | .ok vs => .ok (v :: vs)

/-- The layout fields computed inline for a node (lines 95–113 of the
source): plain module directory, optional peer-shadow module directory
(present exactly when the node declares peer dependencies), and the hardlink
target. -/
def layoutEntry (pkgNode : DependencyTree) (resolvedPeers : List String)
    (peerNodes : List DependencyTree) : ResolvedDependencyTree :=
  let modules := pathJoin [pkgNode.localLocation, "node_modules"]
  let peerModules :=
    if pkgNode.peerDependencies.isEmpty then none
    else some (pathJoin
      [pkgNode.localLocation, createPeersFolderName peerNodes, "node_modules"])
  let hardlinkedLocation := pathJoin [peerModules.getD modules, pkgNode.name]
  { name := pkgNode.name
    hasBundledDependencies := pkgNode.hasBundledDependencies
    fetchingFiles := pkgNode.fetchingFiles
    path := pkgNode.path
    peerModules := peerModules
    modules := modules
    hardlinkedLocation := hardlinkedLocation
    resolvedPeers := resolvedPeers
    children := pkgNode.children
    depth := pkgNode.depth
    id := pkgNode.id }

/-- Resolve a list of sibling nodes against the same scope via `child` (which
is `resolvePeersOfNode` at one less recursion budget), concatenating the
entry lists (a later sibling wins on a repeated key, as with `R.merge`). -/
def resolvePeersOfNodeGo (child : String → (String → Option DependencyTree) →
      Except BuildErr (ResolvedTreeMap × List Warning)) :
    List String → (String → Option DependencyTree) →
      Except BuildErr (ResolvedTreeMap × List Warning)
  | [], _ => .ok ([], [])
  | k :: rest, parentPkgs =>
    match child k parentPkgs with
    | .error e => .error e
    | .ok (entries, warnings) =>
      match resolvePeersOfNodeGo child rest parentPkgs with
      | .error e => .error e
      | .ok (restEntries, restWarnings) =>
        .ok (entries ++ restEntries, warnings ++ restWarnings)

/-- `resolvePeersOfNode`: look the node up, extend the scope with the node
itself and its children, resolve its declared peers in that scope, compute the
layout fields, and recurse into the children with the extended scope.  The
result is the node's own entry followed by the children's entries (so a later
entry wins on a repeated key, exactly as the `R.reduce(R.merge, …)` chain
behaves), together with all warnings in emission order. -/
def resolvePeersOfNode (satisfies : String → String → Bool) (treeMap : TreeMap) :
    Nat → String → (String → Option DependencyTree) →
      Except BuildErr (ResolvedTreeMap × List Warning)
  | 0, _, _ => .error .fuelExhausted
  | fuel + 1, keypathId, parentPkgs =>
    match lookupLast treeMap keypathId with
    | none => .error (.missingPkg keypathId)
    | some pkgNode =>
      match propsE treeMap pkgNode.children with
      | .error e => .error e
      | .ok childNodes =>
        let newParentPkgs := scopeExtend parentPkgs pkgNode childNodes
        let rp := resolvePeers satisfies pkgNode.peerDependencies pkgNode.id newParentPkgs
        match propsE treeMap rp.1 with
        | .error e => .error e
        | .ok peerNodes =>
          match resolvePeersOfNodeGo (resolvePeersOfNode satisfies treeMap fuel)
              pkgNode.children newParentPkgs with
          | .error e => .error e
          | .ok (childEntries, childWarnings) =>
            .ok ((keypathId, layoutEntry pkgNode rp.1 peerNodes) :: childEntries,
              rp.2 ++ childWarnings)

/-- Resolve each of `keys` against the same scope with budget `fuel`. -/
def resolvePeersOfNodeList (satisfies : String → String → Bool) (treeMap : TreeMap)
    (fuel : Nat) (keys : List String)
    (parentPkgs : String → Option DependencyTree) :
    Except BuildErr (ResolvedTreeMap × List Warning) :=
  resolvePeersOfNodeGo (resolvePeersOfNode satisfies treeMap fuel) keys parentPkgs

/-- Depth budget that suffices for `resolvePeersOfNode` on tree maps whose
child keys are strictly longer than their parent key. -/
def rpFuel (treeMap : TreeMap) : Nat :=
  treeMap.length + 1

/-- The module's default export: build the tree, then resolve peers of every
root with the root nodes' by-name map as initial scope, merging all results. -/
def resolvePeersTop (satisfies : String → String → Bool)
    (pkgsMap : LinkedPackagesMap) (topPkgIds : List String) :
    Except BuildErr (ResolvedTreeMap × List Warning) :=
  match createTree pkgsMap (treeFuel pkgsMap) topPkgIds [] [] with
  | .error e => .error e
  | .ok (treeMap, rootNodeIds) =>
    match propsE treeMap rootNodeIds with
    | .error e => .error e
    | .ok rootNodes =>
      let pkgsByName := toPkgByName rootNodes
      resolvePeersOfNodeList satisfies treeMap (rpFuel treeMap) rootNodeIds pkgsByName

/-! ### Filesystem linker (`link/index.ts`) -/

/-- First-occurrence key order of a JavaScript object built by assignments. -/
def firstOccKeys : List String → List String
  | [] => []
  | k :: rest => k :: firstOccKeys (rest.filter (fun k' => k' != k))
  termination_by l => l.length
  decreasing_by
    simp only [List.length_cons]
    exact Nat.lt_succ_of_le (List.length_filter_le _ _)

/-- `R.values` of a JavaScript object embedded as an assignment list: one value
per key (the last assignment wins), in first-assignment key order. -/
def objValues {α : Type} (m : List (String × α)) : List α :=
  (firstOccKeys (m.map Prod.fst)).filterMap (lookupLast m)

/-- `R.uniqBy f`: keep the first element for each distinct `f`-value. -/
def uniqByKey {α β : Type} [DecidableEq β] (f : α → β) : List α → List α
  | [] => []
  | x :: rest => x :: uniqByKey f (rest.filter (fun y => f y != f x))
  termination_by l => l.length
  decreasing_by
    simp only [List.length_cons]
    exact Nat.lt_succ_of_le (List.length_filter_le _ _)

/-- `flatResolvedDeps`: the resolved nodes sorted by ascending depth
(line 51 of `link/index.ts`). -/
def flatResolvedDeps (pkgsToLink : ResolvedTreeMap) : List ResolvedDependencyTree :=
  (objValues pkgsToLink).insertionSort (fun a b => a.depth ≤ b.depth)

/-- `deps`, line 53: the flat list deduplicated by hardlink target. -/
def depsToLink (pkgsToLink : ResolvedTreeMap) : List ResolvedDependencyTree :=
  uniqByKey (fun d => d.hardlinkedLocation) (flatResolvedDeps pkgsToLink)

/-- One `linkPkg` call: hardlink the store `source` into `target`. -/
structure LinkInvocation where
  target : String
  source : String
  deriving DecidableEq

/-- `linkAllPkgs` schedules one `linkPkg` per list element (the concurrency
bound only throttles; it does not change the set of calls). -/
def linkAllPkgsOps (deps : List ResolvedDependencyTree) : List LinkInvocation :=
  deps.map (fun d => ⟨d.hardlinkedLocation, d.path⟩)

/-- Filesystem state as far as this subsystem observes it: each path maps to
the inode of the file there (`none` = no file).  `fs.stat` on a missing path
fails. -/
structure FsState where
  ino : String → Option Nat

/-- `path-exists`. -/
def existsPath (fs : FsState) (p : String) : Bool :=
  (fs.ino p).isSome

/-- `isSameFile`: stat both files and compare inodes; `none` models the
rejected promise when either stat fails. -/
def isSameFile (fs : FsState) (f1 f2 : String) : Option Bool :=
  match fs.ino f1, fs.ino f2 with
  | some i1, some i2 => some (i1 = i2)
  | _, _ => none

/-- `pkgLinkedToStore`: is the target's `package.json` the same physical file
as the store's `package.json`?  (The informational relink log is not modelled.) -/
def pkgLinkedToStore (fs : FsState) (pkgJsonPath : String)
    (dependency : ResolvedDependencyTree) : Option Bool :=
  isSameFile fs pkgJsonPath (pathJoin [dependency.path, "package.json"])

/-- Modelled from the spec: the external `link-dir` package recursively
hardlinks the store path's contents into the target, so afterwards the
target's manifest is the same physical file as the store's manifest.  Only the
manifest file's identity is tracked (the spec names it as the sole idempotence
marker). -/
def linkDirFs (storePath target : String) (fs : FsState) : FsState :=
  { ino := fun p =>
      if p = pathJoin [target, "package.json"] then
        fs.ino (pathJoin [storePath, "package.json"])
      else fs.ino p }

/-- `linkPkg`: await the readiness signal, then hardlink unless the target
already exists and is inode-identical to the store copy (and neither `force`
nor a fresh fetch requires relinking).  Returns the new state and whether a
hardlink operation (`linkDir`) was performed; `.error` models the rejected
promise when a stat inside `isSameFile` fails. -/
def linkPkg (fs : FsState) (dependency : ResolvedDependencyTree) (force : Bool) :
    Except Unit (FsState × Bool) :=
  let newlyFetched := dependency.fetchingFiles
  let pkgJsonPath := pathJoin [dependency.hardlinkedLocation, "package.json"]
  if newlyFetched || force || !existsPath fs pkgJsonPath then
    .ok (linkDirFs dependency.path dependency.hardlinkedLocation fs, true)
  else
    match pkgLinkedToStore fs pkgJsonPath dependency with
    | none => .error ()
    | some true => .ok (fs, false)
    | some false => .ok (linkDirFs dependency.path dependency.hardlinkedLocation fs, true)

/-! ### Uninstall (`api/uninstall.ts`) -/

/-- The dependency sections of a `package.json` consulted by `isDependentOn`;
each section, when present, maps a name to a version-range string. -/
structure PkgManifest where
  dependencies : Option (List (String × String))
  devDependencies : Option (List (String × String))
  optionalDependencies : Option (List (String × String))
  deriving DecidableEq

/-- `isDependentOn`: some section has a truthy entry for `depName`
(in JavaScript an empty-string range would be falsy). -/
def isDependentOn (pkg : PkgManifest) (depName : String) : Bool :=
  [pkg.dependencies, pkg.devDependencies, pkg.optionalDependencies].any
    (fun deps =>
      match deps with
      | none => false
      | some m =>
        match lookupLast m depName with
        | none => false
        | some v => v != "")

/-- The state `uninstallInContext` can modify: the project `package.json` and
the shrinkwrap's dependency entries. -/
structure UninstallCtx where
  pkgJson : PkgManifest
  shrDependencies : List (String × String)
  deriving DecidableEq

/-- Side effects `uninstallInContext` can perform, in order. -/
inductive UninstallEffect where
  | modifiedPackageJson
  | removedOrphanPkgs
  | savedShrinkwrap
  deriving DecidableEq

/-- `uninstallInContext`: if a save type can be derived from the options
(JavaScript truthiness: neither absent nor the empty string), remove the
packages from `package.json`, drop shrinkwrap dependency entries the updated
manifest no longer depends on, prune the shrinkwrap, remove orphans and save;
otherwise do nothing.  The external collaborators (`getSaveType`, `removeDeps`,
`npa`, `pruneShrinkwrap`) are abstract parameters; `removeOrphanPkgs` and
`saveShrinkwrap` are recorded as effects. -/
def uninstallInContext {Opts : Type}
    (getSaveType : Opts → Option String)
    (removeDeps : PkgManifest → List String → String → PkgManifest)
    (npaName : String → String)
    (pruneShrinkwrap : List (String × String) → List (String × String))
    (pkgsToUninstall : List String) (ctx : UninstallCtx) (opts : Opts) :
    UninstallCtx × List UninstallEffect :=
  let saveType := getSaveType opts
  match saveType with
  | none => (ctx, [])
  | some st =>
    if st = "" then (ctx, [])
    else
      let pkg := removeDeps ctx.pkgJson pkgsToUninstall st
      let shrDeps := ctx.shrDependencies.filter
        (fun e => isDependentOn pkg (npaName e.1))
      let newShr := pruneShrinkwrap shrDeps
      ({ pkgJson := pkg, shrDependencies := newShr },
       [.modifiedPackageJson, .removedOrphanPkgs, .savedShrinkwrap])

/-! ### Helper lemmas: the code-unit string order -/

theorem leChars_total (as bs : List Char) : leChars as bs = true ∨ leChars bs as = true := by
  induction as generalizing bs with
  | nil => left; rfl
  | cons a as ih =>
    cases bs with
    | nil => right; rfl
    | cons b bs =>
      rcases lt_trichotomy a b with h | h | h
      · left; simp [leChars, h]
      · subst h
        rcases ih bs with h' | h'
        · left; simp [leChars, h']
        · right; simp [leChars, h']
      · right; simp [leChars, h]

theorem leChars_antisymm (as bs : List Char) (h1 : leChars as bs = true)
    (h2 : leChars bs as = true) : as = bs := by
  induction as generalizing bs with
  | nil =>
    cases bs with
    | nil => rfl
    | cons b bs => simp [leChars] at h2
  | cons a as ih =>
    cases bs with
    | nil => simp [leChars] at h1
    | cons b bs =>
      by_cases hab : a < b
      · have hba : ¬ b < a := lt_asymm hab
        have hne : ¬ b = a := by rintro rfl; exact hba hab
        simp [leChars, hba, hne] at h2
      · by_cases heq : a = b
        · subst heq
          simp [leChars, lt_irrefl] at h1 h2
          rw [ih bs h1 h2]
        · simp [leChars, hab, heq] at h1

theorem leChars_trans (as bs cs : List Char) (h1 : leChars as bs = true)
    (h2 : leChars bs cs = true) : leChars as cs = true := by
  induction as generalizing bs cs with
  | nil => rfl
  | cons a as ih =>
    cases bs with
    | nil => simp [leChars] at h1
    | cons b bs =>
      cases cs with
      | nil => simp [leChars] at h2
      | cons c cs =>
        by_cases hab : a < b
        · by_cases hbc : b < c
          · simp [leChars, lt_trans hab hbc]
          · by_cases hbc' : b = c
            · subst hbc'; simp [leChars, hab]
            · simp [leChars, hbc, hbc'] at h2
        · by_cases hab' : a = b
          · subst hab'
            by_cases hbc : a < c
            · simp [leChars, hbc]
            · by_cases hbc' : a = c
              · subst hbc'
                simp [leChars, lt_irrefl] at h1 h2 ⊢
                exact ih bs cs h1 h2
              · simp [leChars, hbc, hbc'] at h2
          · simp [leChars, hab, hab'] at h1

instance : IsTotal String (fun a b => strLe a b = true) :=
  ⟨fun a b => leChars_total a.data b.data⟩

instance : IsTrans String (fun a b => strLe a b = true) :=
  ⟨fun a b c => leChars_trans a.data b.data c.data⟩

instance : IsAntisymm String (fun a b => strLe a b = true) :=
  ⟨fun a b h1 h2 => by
    have h := leChars_antisymm a.data b.data h1 h2
    cases a; cases b; exact congrArg String.mk h⟩

theorem sortStrings_sorted (l : List String) :
    List.Sorted (fun a b => strLe a b = true) (sortStrings l) :=
  List.sorted_insertionSort _ l

theorem sortStrings_perm (l : List String) : (sortStrings l).Perm l :=
  List.perm_insertionSort _ l

theorem sortStrings_eq_of_perm {l1 l2 : List String} (h : l1.Perm l2) :
    sortStrings l1 = sortStrings l2 :=
  List.eq_of_perm_of_sorted
    (((sortStrings_perm l1).trans h).trans (sortStrings_perm l2).symm)
    (sortStrings_sorted l1) (sortStrings_sorted l2)

/-! ### C4 -/

/-- A concrete resolved peer fixture with name `a/b`, version `1.0.0`. -/
def peerFixtureAB : DependencyTree :=
  { id := "a/b", name := "a/b", version := "1.0.0", peerDependencies := [],
    hasBundledDependencies := false, fetchingFiles := false, localLocation := "",
    path := "", keypathId := "a/b", children := [], depth := 0 }

/-- A concrete resolved peer fixture with name `c`, version `2.0.0`. -/
def peerFixtureC : DependencyTree :=
  { id := "c", name := "c", version := "2.0.0", peerDependencies := [],
    hasBundledDependencies := false, fetchingFiles := false, localLocation := "",
    path := "", keypathId := "c", children := [], depth := 0 }

/-- C4: shadow-folder naming.  The peers `a/b@1.0.0` and `c@2.0.0` produce the
folder name `a!b@1.0.0+c@2.0.0` (slash replaced by `!`, tokens sorted, joined
with `+`), and any two peer lists that are permutations of each other —
identical peer sets anywhere in the tree — produce the same name. -/
theorem c4_shadow_folder_name :
    createPeersFolderName [peerFixtureAB, peerFixtureC] = "a!b@1.0.0+c@2.0.0"
    ∧ createPeersFolderName [peerFixtureC, peerFixtureAB] = "a!b@1.0.0+c@2.0.0"
    ∧ ∀ peers1 peers2 : List DependencyTree, peers1.Perm peers2 →
        createPeersFolderName peers1 = createPeersFolderName peers2 := by
  refine ⟨by decide, by decide, fun peers1 peers2 h => ?_⟩
  unfold createPeersFolderName
  rw [sortStrings_eq_of_perm (h.map _)]

/-- Closed witness for the permutation-invariance part of `c4_shadow_folder_name`. -/
theorem c4_shadow_folder_name_witness :
    createPeersFolderName [peerFixtureC, peerFixtureAB] =
      createPeersFolderName [peerFixtureAB, peerFixtureC] :=
  c4_shadow_folder_name.2.2 [peerFixtureC, peerFixtureAB] [peerFixtureAB, peerFixtureC]
    (List.Perm.swap peerFixtureAB peerFixtureC [])

/-! ### C2 -/

/-- The resolved-peer list of `resolvePeers`, entry by entry: a peer absent
from the scope contributes nothing; a found peer contributes its keypath id
(unless that id is the empty string, which `.filter(Boolean)` also drops). -/
theorem resolvePeers_fst (satisfies : String → String → Bool)
    (pds : List (String × String)) (pkgId : String)
    (scope : String → Option DependencyTree) :
    (resolvePeers satisfies pds pkgId scope).1 = pds.filterMap (fun pd =>
      match scope pd.1 with
      | none => none
      | some res => if res.keypathId = "" then none else some res.keypathId) := by
  simp only [resolvePeers, jsFilterBoolean, List.map_map, List.filterMap_map]
  refine congrFun (congrArg List.filterMap (funext fun pd => ?_)) pds
  rcases pd with ⟨pn, r⟩
  cases h : scope pn with
  | none => simp [Function.comp, h]
  | some res => simp [Function.comp, h]

/-- The warnings of `resolvePeers`, entry by entry. -/
theorem resolvePeers_snd (satisfies : String → String → Bool)
    (pds : List (String × String)) (pkgId : String)
    (scope : String → Option DependencyTree) :
    (resolvePeers satisfies pds pkgId scope).2 = pds.flatMap (fun pd =>
      match scope pd.1 with
      | none => [Warning.peerNotInstalled pkgId pd.1 pd.2]
      | some res =>
        if satisfies res.version pd.2 then []
        else [Warning.peerVersionMismatch pkgId pd.1 pd.2 res.version]) := by
  simp only [resolvePeers, List.flatMap_map]
  refine congrArg (List.flatMap pds) (funext fun pd => ?_)
  rcases pd with ⟨pn, r⟩
  cases h : scope pn with
  | none => simp [h]
  | some res => simp [h]

/-- C2: peer resolution outcome.  For a node with declared peer dependencies
resolved against a parent scope: (a) a peer name absent from the scope
produces a non-fatal `peerNotInstalled` warning; (b) every id in the resolved
list comes from a peer found in scope (absent peers are omitted); (c) a found
peer's keypath id is included whether or not its version satisfies the range
(as long as the id is a truthy, i.e. nonempty, string); (d) when the found
version does not satisfy the range, exactly one version-mismatch warning is
emitted per occurrence of the declared peer.  `resolvePeers` is a total
function: peer lookup never fails fatally. -/
theorem c2_peer_resolution_outcome (satisfies : String → String → Bool)
    (pds : List (String × String)) (pkgId : String)
    (scope : String → Option DependencyTree) (peerName range : String) :
    ((peerName, range) ∈ pds → scope peerName = none →
        Warning.peerNotInstalled pkgId peerName range ∈
          (resolvePeers satisfies pds pkgId scope).2)
    ∧ (∀ k ∈ (resolvePeers satisfies pds pkgId scope).1,
        ∃ pd ∈ pds, ∃ res, scope pd.1 = some res ∧ k = res.keypathId)
    ∧ (∀ res, (peerName, range) ∈ pds → scope peerName = some res →
        res.keypathId ≠ "" → res.keypathId ∈ (resolvePeers satisfies pds pkgId scope).1)
    ∧ (∀ res, scope peerName = some res → satisfies res.version range = false →
        ((resolvePeers satisfies pds pkgId scope).2.count
          (Warning.peerVersionMismatch pkgId peerName range res.version)) =
          pds.count (peerName, range)) := by
  rw [resolvePeers_fst, resolvePeers_snd]
  refine ⟨?_, ?_, ?_, ?_⟩
  · intro hmem habs
    rw [List.mem_flatMap]
    exact ⟨(peerName, range), hmem, by simp [habs]⟩
  · intro k hk
    rw [List.mem_filterMap] at hk
    obtain ⟨pd, hpd, hres⟩ := hk
    cases h : scope pd.1 with
    | none => simp [h] at hres
    | some res =>
      refine ⟨pd, hpd, res, h, ?_⟩
      by_cases hk' : res.keypathId = "" <;> simp [h, hk'] at hres
      exact hres.symm
  · intro res hmem hres hne
    rw [List.mem_filterMap]
    exact ⟨(peerName, range), hmem, by simp [hres, hne]⟩
  · intro res hres hsat
    induction pds with
    | nil => simp
    | cons pd rest ih =>
      rcases pd with ⟨pn2, r2⟩
      rw [List.flatMap_cons, List.count_append, ih, List.count_cons]
      have hone : (List.count (Warning.peerVersionMismatch pkgId peerName range res.version)
          (match scope (pn2, r2).1 with
            | none => [Warning.peerNotInstalled pkgId (pn2, r2).1 (pn2, r2).2]
            | some r =>
              if satisfies r.version (pn2, r2).2 then []
              else [Warning.peerVersionMismatch pkgId (pn2, r2).1 (pn2, r2).2 r.version])) =
          if (((pn2, r2) : String × String) == (peerName, range)) then 1 else 0 := by
        by_cases h1 : pn2 = peerName
        · subst h1
          rw [show scope (pn2, r2).1 = some res from hres]
          by_cases h2 : r2 = range
          · subst h2
            simp [hsat]
          · have h2s : ¬ range = r2 := fun h => h2 h.symm
            cases hs : satisfies res.version r2 <;>
              simp [hs, List.count_singleton', h2, h2s]
        · have h1s : ¬ peerName = pn2 := fun h => h1 h.symm
          cases h : scope (pn2, r2).1 with
          | none => simp [List.count_singleton', h1, h1s]
          | some r =>
            cases hs : satisfies r.version r2 <;>
              simp [hs, List.count_singleton', h1, h1s]
      rw [hone]
      exact Nat.add_comm _ _

/-- A found-peer fixture: name `x`, version `2.0.0`, keypath id `root/x`. -/
def resFixtureX : DependencyTree :=
  { id := "x", name := "x", version := "2.0.0", peerDependencies := [],
    hasBundledDependencies := false, fetchingFiles := false, localLocation := "",
    path := "", keypathId := "root/x", children := [], depth := 1 }

/-- A scope containing only the package name `x`. -/
def scopeFixture : String → Option DependencyTree :=
  fun n => if n = "x" then some resFixtureX else none

/-- Closed witness for `c2_peer_resolution_outcome`: a peer that is present
but fails its range is still included in the resolved list, with exactly one
version-mismatch warning. -/
theorem c2_peer_resolution_outcome_witness :
    resFixtureX.keypathId ∈
      (resolvePeers (fun _ _ => false) [("x", "^1.0.0")] "pkg" scopeFixture).1
    ∧ (resolvePeers (fun _ _ => false) [("x", "^1.0.0")] "pkg" scopeFixture).2.count
        (Warning.peerVersionMismatch "pkg" "x" "^1.0.0" resFixtureX.version) = 1 := by
  have h := c2_peer_resolution_outcome (fun _ _ => false) [("x", "^1.0.0")] "pkg"
    scopeFixture "x" "^1.0.0"
  refine ⟨h.2.2.1 resFixtureX (by decide) (by decide) (by decide), ?_⟩
  have hd := h.2.2.2 resFixtureX (by decide) rfl
  rw [hd]
  decide

/-! ### C6 -/

theorem mem_of_mem_uniqByKey {α β : Type} [DecidableEq β] (f : α → β)
    (l : List α) (x : α) (h : x ∈ uniqByKey f l) : x ∈ l := by
  induction l using uniqByKey.induct f with
  | case1 => simp [uniqByKey] at h
  | case2 y rest ih =>
    rw [uniqByKey] at h
    rcases List.mem_cons.mp h with h | h
    · exact h ▸ List.mem_cons_self _ _
    · exact List.mem_cons_of_mem _ (List.mem_of_mem_filter (ih h))

theorem countP_uniqByKey {α β : Type} [DecidableEq β] (f : α → β)
    (l : List α) (b : β) :
    List.countP (fun x => f x == b) (uniqByKey f l) =
      if b ∈ l.map f then 1 else 0 := by
  induction l using uniqByKey.induct f with
  | case1 => simp [uniqByKey]
  | case2 x rest ih =>
    rw [uniqByKey, List.countP_cons]
    by_cases hb : f x = b
    · subst hb
      have hzero : List.countP (fun y => f y == f x)
          (uniqByKey f (rest.filter (fun y => f y != f x))) = 0 := by
        rw [List.countP_eq_zero]
        intro y hy
        have := List.mem_filter.mp (mem_of_mem_uniqByKey _ _ _ hy)
        simpa using this.2
      simp [hzero]
    · have hmem : (b ∈ (rest.filter (fun y => f y != f x)).map f) ↔ b ∈ rest.map f := by
        constructor
        · intro h
          obtain ⟨y, hy, hfy⟩ := List.mem_map.mp h
          exact List.mem_map.mpr ⟨y, List.mem_of_mem_filter hy, hfy⟩
        · intro h
          obtain ⟨y, hy, hfy⟩ := List.mem_map.mp h
          refine List.mem_map.mpr ⟨y, List.mem_filter.mpr ⟨hy, ?_⟩, hfy⟩
          rw [bne_iff_ne]
          intro h'
          exact hb (h' ▸ hfy)
      have hb' : ¬ b = f x := fun h' => hb h'.symm
      rw [ih]
      simp only [hmem, List.map_cons, List.mem_cons]
      simp [hb, hb']

/-- C6: dedup by hardlink target.  For every resolved map and every path,
the hardlink phase (lines 51–55 of `link/index.ts`) schedules exactly one
`linkPkg` invocation targeting that path if some resolved node has it as its
hardlink location, and none otherwise — even when several keypath nodes share
the target. -/
theorem c6_dedup_by_hardlink_target (m : ResolvedTreeMap) (loc : String) :
    List.countP (fun inv => inv.target == loc) (linkAllPkgsOps (depsToLink m)) =
      if loc ∈ (flatResolvedDeps m).map (fun d => d.hardlinkedLocation) then 1 else 0 := by
  rw [linkAllPkgsOps, List.countP_map]
  exact countP_uniqByKey (fun d => d.hardlinkedLocation) (flatResolvedDeps m) loc

/-! ### C7 -/

/-- C7: idempotent relink.  `linkPkg` performs the recursive hardlink exactly
when the content was freshly fetched, or `force` is set, or the target's
`package.json` is missing, or it is not inode-identical to the store's
`package.json`; in the remaining case (already correctly linked) it performs
no hardlink and leaves the filesystem state unchanged.  Moreover a run that
did link leaves a state in which a further run (not freshly fetched, no
`force`) performs zero hardlink work. -/
theorem c7_linkPkg_idempotent (fs : FsState) (dep : ResolvedDependencyTree)
    (force : Bool) :
    (∀ fs' did, linkPkg fs dep force = .ok (fs', did) →
      (did = true ↔ (dep.fetchingFiles = true ∨ force = true
        ∨ existsPath fs (pathJoin [dep.hardlinkedLocation, "package.json"]) = false
        ∨ pkgLinkedToStore fs (pathJoin [dep.hardlinkedLocation, "package.json"]) dep
            = some false)))
    ∧ (dep.fetchingFiles = false → force = false →
        existsPath fs (pathJoin [dep.hardlinkedLocation, "package.json"]) = true →
        pkgLinkedToStore fs (pathJoin [dep.hardlinkedLocation, "package.json"]) dep
          = some true →
        linkPkg fs dep force = .ok (fs, false))
    ∧ (∀ fs' i, fs.ino (pathJoin [dep.path, "package.json"]) = some i →
        linkPkg fs dep force = .ok (fs', true) →
        dep.fetchingFiles = false →
        linkPkg fs' dep false = .ok (fs', false)) := by
  refine ⟨?_, ?_, ?_⟩
  · intro fs' did hrun
    rw [linkPkg] at hrun
    by_cases hcond : (dep.fetchingFiles || force
        || !existsPath fs (pathJoin [dep.hardlinkedLocation, "package.json"])) = true
    · rw [if_pos hcond] at hrun
      obtain ⟨-, hdid⟩ := Prod.mk.injEq .. ▸ Except.ok.injEq .. ▸ hrun
      subst hdid
      simp only [Bool.or_eq_true, Bool.not_eq_true'] at hcond
      simp only [true_iff]
      rcases hcond with (h | h) | h
      · exact Or.inl h
      · exact Or.inr (Or.inl h)
      · exact Or.inr (Or.inr (Or.inl (by simp [h])))
    · rw [if_neg hcond] at hrun
      simp only [Bool.or_eq_true, Bool.not_eq_true', not_or] at hcond
      obtain ⟨⟨hf, hforce⟩, hex⟩ := hcond
      have hex' : existsPath fs (pathJoin [dep.hardlinkedLocation, "package.json"]) = true := by
        cases hx : existsPath fs (pathJoin [dep.hardlinkedLocation, "package.json"])
        · exact absurd hx hex
        · rfl
      cases hpls : pkgLinkedToStore fs (pathJoin [dep.hardlinkedLocation, "package.json"]) dep with
      | none => rw [hpls] at hrun; cases hrun
      | some b =>
        rw [hpls] at hrun
        cases b
        · obtain ⟨-, hdid⟩ := Prod.mk.injEq .. ▸ Except.ok.injEq .. ▸ hrun
          subst hdid
          simp [hpls]
        · obtain ⟨-, hdid⟩ := Prod.mk.injEq .. ▸ Except.ok.injEq .. ▸ hrun
          subst hdid
          simp [hf, hforce, hex', hpls]
  · intro hf hforce hex hpls
    rw [linkPkg]
    rw [hf, hforce, hex]
    simp only [Bool.or_false, Bool.or_self, Bool.not_true, if_neg (by simp : ¬ (false = true))]
    rw [hpls]
  · intro fs' i hstore hrun hf
    have hfs' : fs' = linkDirFs dep.path dep.hardlinkedLocation fs := by
      rw [linkPkg] at hrun
      by_cases hcond : (dep.fetchingFiles || force
          || !existsPath fs (pathJoin [dep.hardlinkedLocation, "package.json"])) = true
      · rw [if_pos hcond] at hrun
        exact ((Prod.mk.injEq .. ▸ Except.ok.injEq .. ▸ hrun) : _ ∧ _).1.symm
      · rw [if_neg hcond] at hrun
        cases hpls : pkgLinkedToStore fs (pathJoin [dep.hardlinkedLocation, "package.json"]) dep with
        | none => rw [hpls] at hrun; cases hrun
        | some b =>
          rw [hpls] at hrun
          cases b
          · exact ((Prod.mk.injEq .. ▸ Except.ok.injEq .. ▸ hrun) : _ ∧ _).1.symm
          · exact absurd ((Prod.mk.injEq .. ▸ Except.ok.injEq .. ▸ hrun) : _ ∧ _).2 (by simp)
    subst hfs'
    have htgt : (linkDirFs dep.path dep.hardlinkedLocation fs).ino
        (pathJoin [dep.hardlinkedLocation, "package.json"]) = some i := by
      rw [linkDirFs]
      simp [hstore]
    have hsto : (linkDirFs dep.path dep.hardlinkedLocation fs).ino
        (pathJoin [dep.path, "package.json"]) = some i := by
      rw [linkDirFs]
      simp [ite_self, hstore]
    rw [linkPkg]
    rw [hf]
    have hex2 : existsPath (linkDirFs dep.path dep.hardlinkedLocation fs)
        (pathJoin [dep.hardlinkedLocation, "package.json"]) = true := by
      rw [existsPath, htgt]; rfl
    rw [hex2]
    simp only [Bool.or_false, Bool.or_self, Bool.not_true, if_neg (by simp : ¬ (false = true))]
    rw [pkgLinkedToStore, isSameFile, htgt, hsto]
    simp

/-! ### C10 -/

/-- C10: uninstall is a no-op without a save type.  When no save type can be
derived from the options, `uninstallInContext` returns with the context
unchanged and performs no side effect (no `package.json` modification, no
shrinkwrap dependency removal or prune, no orphan removal, no shrinkwrap
save); conversely, any performed side effect implies a truthy save type. -/
theorem c10_uninstall_noop {Opts : Type}
    (getSaveType : Opts → Option String)
    (removeDeps : PkgManifest → List String → String → PkgManifest)
    (npaName : String → String)
    (pruneShrinkwrap : List (String × String) → List (String × String))
    (pkgsToUninstall : List String) (ctx : UninstallCtx) (opts : Opts) :
    (getSaveType opts = none →
      uninstallInContext getSaveType removeDeps npaName pruneShrinkwrap
        pkgsToUninstall ctx opts = (ctx, []))
    ∧ (∀ ctx' effs,
        uninstallInContext getSaveType removeDeps npaName pruneShrinkwrap
          pkgsToUninstall ctx opts = (ctx', effs) →
        effs ≠ [] → ∃ st, getSaveType opts = some st ∧ st ≠ "") := by
  constructor
  · intro h
    rw [uninstallInContext, h]
  · intro ctx' effs hrun heffs
    rw [uninstallInContext] at hrun
    cases h : getSaveType opts with
    | none =>
      simp only [h] at hrun
      cases hrun
      exact absurd rfl heffs
    | some st =>
      simp only [h] at hrun
      by_cases hst : st = ""
      · rw [if_pos hst] at hrun
        cases hrun
        exact absurd rfl heffs
      · exact ⟨st, rfl, hst⟩

/-- Closed witness for `c10_uninstall_noop`: with options from which no save
type derives, nothing happens. -/
theorem c10_uninstall_noop_witness :
    @uninstallInContext Unit (fun _ => none)
      (fun pkg _ _ => pkg) (fun n => n) (fun l => l) ["dep"]
      { pkgJson := { dependencies := none, devDependencies := none,
                     optionalDependencies := none }, shrDependencies := [] } ()
      = ({ pkgJson := { dependencies := none, devDependencies := none,
                        optionalDependencies := none }, shrDependencies := [] }, []) :=
  (c10_uninstall_noop (fun _ => none) (fun pkg _ _ => pkg) (fun n => n) (fun l => l)
    ["dep"] _ ()).1 rfl

/-! ### Path-join helper lemmas -/

theorem joinSlash_ne_empty (x : String) (xs : List String) (hx : x ≠ "") :
    joinSlash (x :: xs) ≠ "" := by
  cases xs with
  | nil => simpa [joinSlash] using hx
  | cons y ys =>
    show x ++ "/" ++ joinSlash (y :: ys) ≠ ""
    intro h
    have hlen := congrArg String.length h
    rw [String.length_append, String.length_append] at hlen
    have h1 : ("/" : String).length = 1 := rfl
    have h0 : ("" : String).length = 0 := rfl
    omega

theorem pathJoin_ne_empty (parts : List String) : pathJoin parts ≠ "" := by
  rw [pathJoin]
  cases hps : parts.filter (fun p => p != "") with
  | nil => simp
  | cons x xs =>
    have hmem : x ∈ parts.filter (fun p => p != "") := by
      rw [hps]; exact List.mem_cons_self x xs
    have hx : x ≠ "" := by simpa using (List.mem_filter.mp hmem).2
    simpa using joinSlash_ne_empty x xs hx

theorem pathJoin_two (a b : String) (ha : a ≠ "") (hb : b ≠ "") :
    pathJoin [a, b] = a ++ "/" ++ b := by
  rw [pathJoin]
  have hf : [a, b].filter (fun p => p != "") = [a, b] := by simp [ha, hb]
  rw [hf]
  rfl

theorem pathJoin_three (a b c : String) (ha : a ≠ "") (hb : b ≠ "") (hc : c ≠ "") :
    pathJoin [a, b, c] = a ++ "/" ++ b ++ "/" ++ c := by
  rw [pathJoin]
  have hf : [a, b, c].filter (fun p => p != "") = [a, b, c] := by simp [ha, hb, hc]
  rw [hf]
  show a ++ "/" ++ (b ++ "/" ++ c) = a ++ "/" ++ b ++ "/" ++ c
  simp [String.append_assoc]

theorem pathJoin_mid_empty (a c : String) : pathJoin [a, "", c] = pathJoin [a, c] := by
  rw [pathJoin, pathJoin]
  have hf : ∀ l, ("" :: l).filter (fun p => p != "") = l.filter (fun p => p != "") := by
    intro l; simp
  show (if ([a, "", c].filter (fun p => p != "")).isEmpty then "."
      else joinSlash ([a, "", c].filter (fun p => p != ""))) = _
  by_cases haE : a = ""
  · subst haE; simp
  · simp [haE]

/-! ### Shared unfolding lemma for `resolvePeersOfNode` -/

/-- A successful `resolvePeersOfNode` run decomposes as: resolve the node's
own peers in the scope extended with the node and its children, compute the
layout entry, and process the children with that same extended scope. -/
theorem resolvePeersOfNode_ok_parts {s : String → String → Bool} {tm : TreeMap}
    {fuel : Nat} {k : String} {p : String → Option DependencyTree}
    {entries : ResolvedTreeMap} {ws : List Warning}
    {node : DependencyTree} {childNodes : List DependencyTree}
    (hrun : resolvePeersOfNode s tm (fuel + 1) k p = .ok (entries, ws))
    (hnode : lookupLast tm k = some node)
    (hch : propsE tm node.children = .ok childNodes) :
    ∃ peerNodes childEntries childWs,
      propsE tm (resolvePeers s node.peerDependencies node.id
        (scopeExtend p node childNodes)).1 = .ok peerNodes
      ∧ resolvePeersOfNodeGo (resolvePeersOfNode s tm fuel) node.children
          (scopeExtend p node childNodes) = .ok (childEntries, childWs)
      ∧ entries = (k, layoutEntry node (resolvePeers s node.peerDependencies node.id
          (scopeExtend p node childNodes)).1 peerNodes) :: childEntries
      ∧ ws = (resolvePeers s node.peerDependencies node.id
          (scopeExtend p node childNodes)).2 ++ childWs := by
  simp only [resolvePeersOfNode, hnode, hch] at hrun
  cases hpn : propsE tm (resolvePeers s node.peerDependencies node.id
      (scopeExtend p node childNodes)).1 with
  | error e => exact Except.noConfusion (by simpa only [hpn] using hrun)
  | ok peerNodes =>
    simp only [hpn] at hrun
    cases hgo : resolvePeersOfNodeGo (resolvePeersOfNode s tm fuel) node.children
        (scopeExtend p node childNodes) with
    | error e => exact Except.noConfusion (by simpa only [hgo] using hrun)
    | ok pr =>
      rcases pr with ⟨childEntries, childWs⟩
      simp only [hgo] at hrun
      obtain ⟨h1, h2⟩ := Prod.mk.injEq .. ▸ Except.ok.injEq .. ▸ hrun
      exact ⟨peerNodes, childEntries, childWs, rfl, rfl, h1.symm, h2.symm⟩

theorem layoutEntry_modules (node : DependencyTree) (rp : List String)
    (pn : List DependencyTree) :
    (layoutEntry node rp pn).modules = pathJoin [node.localLocation, "node_modules"] := rfl

theorem layoutEntry_peerModules (node : DependencyTree) (rp : List String)
    (pn : List DependencyTree) :
    (layoutEntry node rp pn).peerModules =
      if node.peerDependencies.isEmpty then none
      else some (pathJoin
        [node.localLocation, createPeersFolderName pn, "node_modules"]) := rfl

theorem layoutEntry_hardlinkedLocation (node : DependencyTree) (rp : List String)
    (pn : List DependencyTree) :
    (layoutEntry node rp pn).hardlinkedLocation =
      pathJoin [(layoutEntry node rp pn).peerModules.getD
        (layoutEntry node rp pn).modules, node.name] := rfl

/-! ### C3 -/

/-- C3: layout assignment.  For every node a successful `resolvePeersOfNode`
processes, the produced entry satisfies: `modules` is the node's local base
location joined with `node_modules`; `peerModules` is defined exactly when
the node declares peer dependencies, and (when the shadow-folder name is
nonempty) equals the base location joined with the shadow-folder name and
`node_modules`; `hardlinkedLocation` is `peerModules` (or `modules` when
undefined) joined with the node's name. -/
theorem c3_layout_assignment (s : String → String → Bool) (tm : TreeMap)
    (fuel : Nat) (k : String) (p : String → Option DependencyTree)
    (entries : ResolvedTreeMap) (ws : List Warning)
    (node : DependencyTree) (childNodes : List DependencyTree)
    (hrun : resolvePeersOfNode s tm (fuel + 1) k p = .ok (entries, ws))
    (hnode : lookupLast tm k = some node)
    (hch : propsE tm node.children = .ok childNodes)
    (hloc : node.localLocation ≠ "") (hname : node.name ≠ "") :
    ∃ peerNodes childEntries,
      entries = (k, layoutEntry node (resolvePeers s node.peerDependencies node.id
        (scopeExtend p node childNodes)).1 peerNodes) :: childEntries
      ∧ ∀ rp : List String,
        (layoutEntry node rp peerNodes).modules = node.localLocation ++ "/node_modules"
        ∧ ((layoutEntry node rp peerNodes).peerModules.isSome ↔
            node.peerDependencies ≠ [])
        ∧ (node.peerDependencies ≠ [] → createPeersFolderName peerNodes ≠ "" →
            (layoutEntry node rp peerNodes).peerModules =
              some (node.localLocation ++ "/" ++ createPeersFolderName peerNodes
                ++ "/node_modules"))
        ∧ (layoutEntry node rp peerNodes).hardlinkedLocation =
            ((layoutEntry node rp peerNodes).peerModules.getD
              (layoutEntry node rp peerNodes).modules) ++ "/" ++ node.name := by
  obtain ⟨peerNodes, childEntries, childWs, hpn, hgo, hent, hws⟩ :=
    resolvePeersOfNode_ok_parts hrun hnode hch
  refine ⟨peerNodes, childEntries, hent, fun rp => ⟨?_, ?_, ?_, ?_⟩⟩
  · rw [layoutEntry_modules, pathJoin_two _ _ hloc (by decide), String.append_assoc]
    exact rfl
  · rw [layoutEntry_peerModules]
    cases hpd : node.peerDependencies with
    | nil => simp
    | cons a l => simp
  · intro hpd hfold
    rw [layoutEntry_peerModules, if_neg (by simp [hpd]),
      pathJoin_three _ _ _ hloc hfold (by decide), String.append_assoc]
    exact rfl
  · rw [layoutEntry_hardlinkedLocation]
    have hne : (layoutEntry node rp peerNodes).peerModules.getD
        (layoutEntry node rp peerNodes).modules ≠ "" := by
      rw [layoutEntry_peerModules, layoutEntry_modules]
      cases hpd : node.peerDependencies.isEmpty with
      | true => simpa using pathJoin_ne_empty _
      | false => simpa using pathJoin_ne_empty _
    rw [pathJoin_two _ _ hne hname]

/-! ### C9 -/

/-- C9: a node that declares peer dependencies but resolves none of them
(every declared peer name absent from the extended scope) still gets a
defined `peerModules`, which collapses to the same directory as `modules`
because the empty shadow-folder name is dropped by path joining; its
hardlink location is therefore `modules` joined with the node name, exactly
as for a node with no declared peers. -/
theorem c9_unmatched_peers_layout (s : String → String → Bool) (tm : TreeMap)
    (fuel : Nat) (k : String) (p : String → Option DependencyTree)
    (entries : ResolvedTreeMap) (ws : List Warning)
    (node : DependencyTree) (childNodes : List DependencyTree)
    (hrun : resolvePeersOfNode s tm (fuel + 1) k p = .ok (entries, ws))
    (hnode : lookupLast tm k = some node)
    (hch : propsE tm node.children = .ok childNodes)
    (hpeers : node.peerDependencies ≠ [])
    (habsent : ∀ pd ∈ node.peerDependencies,
      scopeExtend p node childNodes pd.1 = none) :
    ∃ childEntries,
      entries = (k, layoutEntry node [] []) :: childEntries
      ∧ (layoutEntry node [] []).resolvedPeers = []
      ∧ (layoutEntry node [] []).peerModules = some ((layoutEntry node [] []).modules)
      ∧ (layoutEntry node [] []).hardlinkedLocation =
          pathJoin [(layoutEntry node [] []).modules, node.name] := by
  have hrp : (resolvePeers s node.peerDependencies node.id
      (scopeExtend p node childNodes)).1 = [] := by
    rw [resolvePeers_fst, List.filterMap_eq_nil_iff]
    intro pd hpd
    rw [habsent pd hpd]
  obtain ⟨peerNodes, childEntries, childWs, hpn, hgo, hent, hws⟩ :=
    resolvePeersOfNode_ok_parts hrun hnode hch
  rw [hrp] at hpn hent
  have hpnil : peerNodes = [] := by
    have : propsE tm ([] : List String) = .ok ([] : List DependencyTree) := rfl
    rw [this] at hpn
    exact (Except.ok.injEq .. ▸ hpn).symm
  subst hpnil
  refine ⟨childEntries, hent, rfl, ?_, ?_⟩
  · rw [layoutEntry_peerModules, layoutEntry_modules, if_neg (by simp [hpeers])]
    have hfold : createPeersFolderName ([] : List DependencyTree) = "" := rfl
    rw [hfold, pathJoin_mid_empty]
  · rw [layoutEntry_hardlinkedLocation]
    rw [layoutEntry_peerModules, layoutEntry_modules, if_neg (by simp [hpeers])]
    have hfold : createPeersFolderName ([] : List DependencyTree) = "" := rfl
    rw [hfold, pathJoin_mid_empty]
    rfl

/-! ### C5 -/

/-- C5: peer-scope construction and precedence.  The scope used for a node's
peer resolution is the caller's accumulated scope overlaid with the node
itself and then the node's direct children, with precedence
ancestor < self < children: a name carried by some direct child resolves to a
child of that name; otherwise the node's own name resolves to the node;
otherwise the ancestor scope answers.  A successful `resolvePeersOfNode` run
resolves the node's declared peers in exactly this extended scope and threads
the same extended scope down to the node's children. -/
theorem c5_scope_overlay_and_threading :
    (∀ (p : String → Option DependencyTree) (self : DependencyTree)
        (kids : List DependencyTree) (n : String),
      ((∃ c ∈ kids, c.name = n) →
          ∃ c, scopeExtend p self kids n = some c ∧ c ∈ kids ∧ c.name = n)
      ∧ ((∀ c ∈ kids, c.name ≠ n) → self.name = n →
          scopeExtend p self kids n = some self)
      ∧ ((∀ c ∈ kids, c.name ≠ n) → self.name ≠ n →
          scopeExtend p self kids n = p n))
    ∧ (∀ (s : String → String → Bool) (tm : TreeMap) (fuel : Nat) (k : String)
        (p : String → Option DependencyTree) (entries : ResolvedTreeMap)
        (ws : List Warning) (node : DependencyTree)
        (childNodes : List DependencyTree),
        resolvePeersOfNode s tm (fuel + 1) k p = .ok (entries, ws) →
        lookupLast tm k = some node →
        propsE tm node.children = .ok childNodes →
        ∃ peerNodes childEntries childWs,
          resolvePeersOfNodeGo (resolvePeersOfNode s tm fuel) node.children
            (scopeExtend p node childNodes) = .ok (childEntries, childWs)
          ∧ entries = (k, layoutEntry node
              (resolvePeers s node.peerDependencies node.id
                (scopeExtend p node childNodes)).1 peerNodes) :: childEntries) := by
  constructor
  · intro p self kids n
    refine ⟨?_, ?_, ?_⟩
    · rintro ⟨c, hc, hcn⟩
      have hmem : c ∈ kids.filter (fun q => q.name == n) :=
        List.mem_filter.mpr ⟨hc, by simp [hcn]⟩
      have hne : kids.filter (fun q => q.name == n) ≠ [] := by
        intro h; rw [h] at hmem; exact List.not_mem_nil c hmem
      obtain ⟨c', hc'⟩ := Option.isSome_iff_exists.mp (List.getLast?_isSome.mpr hne)
      have hc'mem := List.mem_filter.mp (List.mem_of_mem_getLast? hc')
      refine ⟨c', ?_, hc'mem.1, by simpa using hc'mem.2⟩
      rw [scopeExtend, toPkgByName, hc']
    · intro hnone hself
      have hfil : kids.filter (fun q => q.name == n) = [] :=
        List.filter_eq_nil_iff.mpr (fun c hc => by simp [hnone c hc])
      rw [scopeExtend, toPkgByName, hfil]
      simp [hself]
    · intro hnone hself
      have hfil : kids.filter (fun q => q.name == n) = [] :=
        List.filter_eq_nil_iff.mpr (fun c hc => by simp [hnone c hc])
      rw [scopeExtend, toPkgByName, hfil]
      simp [hself]
  · intro s tm fuel k p entries ws node childNodes hrun hnode hch
    obtain ⟨peerNodes, childEntries, childWs, hpn, hgo, hent, hws⟩ :=
      resolvePeersOfNode_ok_parts hrun hnode hch
    exact ⟨peerNodes, childEntries, childWs, hgo, hent⟩

/-! ### Concrete fixtures for the peer-resolution witnesses -/

/-- A parent tree node `P` at keypath `p` with one child and one declared
peer dependency on `X`. -/
def nodeP : DependencyTree :=
  { id := "p", name := "P", version := "1.0.0",
    peerDependencies := [("X", "^1.0.0")], hasBundledDependencies := false,
    fetchingFiles := false, localLocation := "nm/.p", path := "store/p",
    keypathId := "p", children := ["p/c"], depth := 0 }

/-- A child tree node named `X` at keypath `p/c`. -/
def nodeC : DependencyTree :=
  { id := "c", name := "X", version := "1.0.0", peerDependencies := [],
    hasBundledDependencies := false, fetchingFiles := false,
    localLocation := "nm/.c", path := "store/c", keypathId := "p/c",
    children := [], depth := 1 }

/-- A childless node `Q` declaring a peer dependency on `Z` that nothing
provides. -/
def nodeQ : DependencyTree :=
  { id := "q", name := "Q", version := "1.0.0",
    peerDependencies := [("Z", "^1.0.0")], hasBundledDependencies := false,
    fetchingFiles := false, localLocation := "nm/.q", path := "store/q",
    keypathId := "q", children := [], depth := 0 }

/-- Tree map holding `P` and its child. -/
def tmFixture : TreeMap := [("p/c", nodeC), ("p", nodeP)]

/-- Tree map holding only `Q`. -/
def tmFixtureQ : TreeMap := [("q", nodeQ)]

/-- The entry list of the fixture run on `P` (the run succeeds, see the
witnesses below). -/
def entriesFixP : ResolvedTreeMap :=
  match resolvePeersOfNode (fun _ _ => true) tmFixture 2 "p" (fun _ => none) with
  | .ok (es, _) => es
  | .error _ => []

/-- The warning list of the fixture run on `P`. -/
def wsFixP : List Warning :=
  match resolvePeersOfNode (fun _ _ => true) tmFixture 2 "p" (fun _ => none) with
  | .ok (_, w) => w
  | .error _ => []

/-- The entry list of the fixture run on `Q`. -/
def entriesFixQ : ResolvedTreeMap :=
  match resolvePeersOfNode (fun _ _ => true) tmFixtureQ 1 "q" (fun _ => none) with
  | .ok (es, _) => es
  | .error _ => []

/-- The warning list of the fixture run on `Q`. -/
def wsFixQ : List Warning :=
  match resolvePeersOfNode (fun _ _ => true) tmFixtureQ 1 "q" (fun _ => none) with
  | .ok (_, w) => w
  | .error _ => []

/-- Closed witness for `c3_layout_assignment` on the concrete fixture. -/
theorem c3_layout_assignment_witness :
    ∃ peerNodes childEntries,
      entriesFixP = ("p", layoutEntry nodeP
        (resolvePeers (fun _ _ => true) nodeP.peerDependencies nodeP.id
          (scopeExtend (fun _ => none) nodeP [nodeC])).1 peerNodes) :: childEntries
      ∧ ∀ rp : List String,
        (layoutEntry nodeP rp peerNodes).modules = nodeP.localLocation ++ "/node_modules"
        ∧ ((layoutEntry nodeP rp peerNodes).peerModules.isSome ↔
            nodeP.peerDependencies ≠ [])
        ∧ (nodeP.peerDependencies ≠ [] → createPeersFolderName peerNodes ≠ "" →
            (layoutEntry nodeP rp peerNodes).peerModules =
              some (nodeP.localLocation ++ "/" ++ createPeersFolderName peerNodes
                ++ "/node_modules"))
        ∧ (layoutEntry nodeP rp peerNodes).hardlinkedLocation =
            ((layoutEntry nodeP rp peerNodes).peerModules.getD
              (layoutEntry nodeP rp peerNodes).modules) ++ "/" ++ nodeP.name :=
  c3_layout_assignment (fun _ _ => true) tmFixture 1 "p" (fun _ => none)
    entriesFixP wsFixP nodeP [nodeC] rfl rfl rfl (by decide) (by decide)

/-- Closed witness for `c9_unmatched_peers_layout` on the concrete fixture. -/
theorem c9_unmatched_peers_layout_witness :
    ∃ childEntries,
      entriesFixQ = ("q", layoutEntry nodeQ [] []) :: childEntries
      ∧ (layoutEntry nodeQ [] []).resolvedPeers = []
      ∧ (layoutEntry nodeQ [] []).peerModules = some ((layoutEntry nodeQ [] []).modules)
      ∧ (layoutEntry nodeQ [] []).hardlinkedLocation =
          pathJoin [(layoutEntry nodeQ [] []).modules, nodeQ.name] :=
  c9_unmatched_peers_layout (fun _ _ => true) tmFixtureQ 0 "q" (fun _ => none)
    entriesFixQ wsFixQ nodeQ [] rfl rfl rfl (by decide) (by decide)

/-- Closed witness for `c5_scope_overlay_and_threading` on the concrete
fixture: the child named `X` shadows the outer scope, and the fixture run on
`P` decomposes through the extended scope. -/
theorem c5_scope_overlay_and_threading_witness :
    (∃ c, scopeExtend (fun _ => none) nodeP [nodeC] "X" = some c
      ∧ c ∈ [nodeC] ∧ c.name = "X")
    ∧ ∃ peerNodes childEntries childWs,
        resolvePeersOfNodeGo (resolvePeersOfNode (fun _ _ => true) tmFixture 1)
          nodeP.children (scopeExtend (fun _ => none) nodeP [nodeC])
          = .ok (childEntries, childWs)
        ∧ entriesFixP = ("p", layoutEntry nodeP
            (resolvePeers (fun _ _ => true) nodeP.peerDependencies nodeP.id
              (scopeExtend (fun _ => none) nodeP [nodeC])).1 peerNodes) :: childEntries :=
  ⟨(c5_scope_overlay_and_threading.1 (fun _ => none) nodeP [nodeC] "X").1
      ⟨nodeC, List.mem_cons_self _ _, rfl⟩,
    c5_scope_overlay_and_threading.2 (fun _ _ => true) tmFixture 1 "p" (fun _ => none)
      entriesFixP wsFixP nodeP [nodeC] rfl rfl rfl⟩

/-- A filesystem in which the fixture dependency is already correctly
linked: target and store manifest share inode 1. -/
def fsFixture : FsState :=
  ⟨fun p =>
    if p = "nm/.d/node_modules/D/package.json" then some 1
    else if p = "store/d/package.json" then some 1
    else none⟩

/-- A resolved node whose hardlink target is already linked in `fsFixture`. -/
def depFixture : ResolvedDependencyTree :=
  { name := "D", hasBundledDependencies := false, path := "store/d",
    modules := "nm/.d/node_modules", peerModules := none,
    fetchingFiles := false, hardlinkedLocation := "nm/.d/node_modules/D",
    children := [], resolvedPeers := [], depth := 0, id := "d" }

/-- Closed witness for `c7_linkPkg_idempotent`: relinking an
already-correctly-linked target does nothing. -/
theorem c7_linkPkg_idempotent_witness :
    linkPkg fsFixture depFixture false = .ok (fsFixture, false) :=
  (c7_linkPkg_idempotent fsFixture depFixture false).2.1 rfl rfl
    (by decide) (by decide)

/-! ### C1: cycle safety of the tree builder

The termination argument: along any descent, the pair `(current id, child id)`
is only followed when it is not yet an adjacent pair of the ancestor keypath,
and it becomes one two levels down; consequently every adjacent pair of a
keypath occurs at most twice, bounding the keypath length and hence the
recursion depth. -/

theorem aperture2_cons2 {α : Type} (a b : α) (t : List α) :
    aperture2 (a :: b :: t) = (a, b) :: aperture2 (b :: t) := rfl

theorem aperture2_concat_getLast :
    ∀ (K : List String) (l x : String), K.getLast? = some l →
      aperture2 (K ++ [x]) = aperture2 K ++ [(l, x)]
  | [], l, x, hl => absurd hl (by simp)
  | [a], l, x, hl => by
    have ha : l = a := by simpa [List.getLast?_singleton] using hl.symm
    subst ha
    rfl
  | a :: b :: t, l, x, hl => by
    rw [List.getLast?_cons_cons] at hl
    have h1 : (a :: b :: t) ++ [x] = a :: ((b :: t) ++ [x]) := rfl
    rw [h1]
    have h2 : (b :: t) ++ [x] = b :: (t ++ [x]) := rfl
    rw [h2, aperture2_cons2, ← h2, aperture2_concat_getLast (b :: t) l x hl,
      aperture2_cons2]
    rfl

/-- Invariant on keypaths reachable by `createTree`: every adjacent pair
occurs at most twice. -/
def okK (K : List String) : Prop :=
  ∀ pr : String × String,
    (↑(aperture2 K) : Multiset (String × String)).count pr ≤ 2

theorem okK_nil : okK [] := fun _ => by simp [aperture2]

theorem okK_single (x : String) : okK [x] := fun _ => by simp [aperture2]

theorem okK_extend {K : List String} {P D : String}
    (hokP : okK (K ++ [P])) (hnot : (P, D) ∉ aperture2 K) :
    okK (K ++ [P] ++ [D]) := by
  intro pr
  rw [aperture2_concat_getLast (K ++ [P]) P D (List.getLast?_concat K)]
  rw [← Multiset.coe_add, Multiset.count_add, Multiset.coe_singleton,
    Multiset.count_singleton]
  by_cases hpr : pr = (P, D)
  · subst hpr
    have hA : (↑(aperture2 (K ++ [P])) : Multiset (String × String)).count (P, D) ≤ 1 := by
      rcases K with _ | ⟨a, t⟩
      · show (↑(aperture2 ([] ++ [P])) : Multiset (String × String)).count (P, D) ≤ 1
        simp [aperture2]
      · obtain ⟨l, hl⟩ := Option.isSome_iff_exists.mp
          (List.getLast?_isSome.mpr (by simp : (a :: t) ≠ []))
        rw [aperture2_concat_getLast (a :: t) l P hl, ← Multiset.coe_add,
          Multiset.count_add, Multiset.coe_singleton, Multiset.count_singleton]
        have h0 : (↑(aperture2 (a :: t)) : Multiset (String × String)).count (P, D) = 0 :=
          Multiset.count_eq_zero.mpr (by simpa using hnot)
        rw [h0]
        split <;> omega
    rw [if_pos rfl]
    omega
  · rw [if_neg hpr]
    have := hokP pr
    omega

theorem aperture2_length {α : Type} (K : List α) :
    (aperture2 K).length = K.length - 1 := by
  simp only [aperture2, List.length_zip, List.length_tail]
  omega

theorem mem_aperture2 {a b : String} {K : List String}
    (h : (a, b) ∈ aperture2 K) : a ∈ K ∧ b ∈ K := by
  have := List.of_mem_zip h
  exact ⟨this.1, List.mem_of_mem_tail this.2⟩

theorem okK_length_bound (S : Finset String) (K : List String)
    (hmem : ∀ x ∈ K, x ∈ S) (hok : okK K) :
    K.length ≤ 2 * (S.card * S.card) + 1 := by
  rcases K with _ | ⟨a, t⟩
  · simp
  · set K := a :: t with hK
    set M : Multiset (String × String) := ↑(aperture2 K) with hM
    have hlen : Multiset.card M = K.length - 1 := by
      rw [hM, Multiset.coe_card, aperture2_length]
    have hsub : M.toFinset ⊆ S ×ˢ S := by
      intro pr hpr
      rcases pr with ⟨x, y⟩
      rw [Multiset.mem_toFinset, hM, Multiset.mem_coe] at hpr
      obtain ⟨hx, hy⟩ := mem_aperture2 hpr
      exact Finset.mem_product.mpr ⟨hmem x hx, hmem y hy⟩
    have hcard : ∑ pr ∈ M.toFinset, M.count pr = Multiset.card M :=
      Multiset.toFinset_sum_count_eq M
    have hsum : ∑ pr ∈ M.toFinset, M.count pr ≤ ∑ pr ∈ S ×ˢ S, M.count pr :=
      Finset.sum_le_sum_of_subset hsub
    have hsum2 : ∑ pr ∈ S ×ˢ S, M.count pr ≤ ∑ _pr ∈ S ×ˢ S, 2 :=
      Finset.sum_le_sum (fun pr _ => hok pr)
    have hconst : ∑ _pr ∈ S ×ˢ S, 2 = 2 * (S.card * S.card) := by
      rw [Finset.sum_const, smul_eq_mul, Nat.mul_comm, Finset.card_product]
    have hpos : 1 ≤ K.length := by rw [hK]; simp
    omega

theorem lookupLast_mem_keys {α : Type} {m : List (String × α)} {k : String} {v : α}
    (h : lookupLast m k = some v) : k ∈ m.map Prod.fst := by
  induction m with
  | nil => simp [lookupLast] at h
  | cons e rest ih =>
    rw [lookupLast] at h
    cases hr : lookupLast rest k with
    | some v' =>
      rw [hr] at h
      cases h
      exact List.mem_cons_of_mem _ (ih hr)
    | none =>
      rw [hr] at h
      by_cases hk : e.1 = k
      · exact hk ▸ List.mem_cons_self _ _
      · rw [if_neg hk] at h; cases h

theorem lookupLast_mem_values {α : Type} {m : List (String × α)} {k : String} {v : α}
    (h : lookupLast m k = some v) : v ∈ m.map Prod.snd := by
  induction m with
  | nil => simp [lookupLast] at h
  | cons e rest ih =>
    rw [lookupLast] at h
    cases hr : lookupLast rest k with
    | some v' =>
      rw [hr] at h
      cases h
      exact List.mem_cons_of_mem _ (ih hr)
    | none =>
      rw [hr] at h
      by_cases hk : e.1 = k
      · rw [if_pos hk] at h
        cases h
        exact List.mem_cons_self _ _
      · rw [if_neg hk] at h; cases h

/-- The key set of a package map. -/
def idKeys (pkgsMap : LinkedPackagesMap) : Finset String :=
  (pkgsMap.map Prod.fst).toFinset

/-- A package map is well-formed when each entry's `id` field equals its key
(the caller builds the map exactly this way). -/
def WFMap (pkgsMap : LinkedPackagesMap) : Prop :=
  ∀ k p, lookupLast pkgsMap k = some p → p.id = k

/-- Structure of a successful `createTreeGo` step on a nonempty id list. -/
theorem createTreeGo_cons_ok {pkgsMap : LinkedPackagesMap}
    {child : List String → List String → TreeMap → Except BuildErr (TreeMap × List String)}
    {pkgId : String} {restIds keypath : List String} {acc tm : TreeMap}
    {roots : List String}
    (h : createTreeGo pkgsMap child (pkgId :: restIds) keypath acc = .ok (tm, roots)) :
    ∃ pkg tm1 children restRoots,
      lookupLast pkgsMap pkgId = some pkg
      ∧ child (getNonCircularDependencies pkg.id pkg.dependencies keypath)
          (keypath ++ [pkg.id]) acc = .ok (tm1, children)
      ∧ createTreeGo pkgsMap child restIds keypath
          (tm1 ++ [(joinSlash (keypath ++ [pkg.id]),
            mkNode pkg (joinSlash (keypath ++ [pkg.id])) children keypath.length)])
          = .ok (tm, restRoots)
      ∧ roots = joinSlash (keypath ++ [pkg.id]) :: restRoots := by
  cases hpk : lookupLast pkgsMap pkgId with
  | none =>
    simp only [createTreeGo, hpk] at h
    exact Except.noConfusion h
  | some pkg =>
    simp only [createTreeGo, hpk] at h
    cases hc : child (getNonCircularDependencies pkg.id pkg.dependencies keypath)
        (keypath ++ [pkg.id]) acc with
    | error e => exact Except.noConfusion (by simpa only [hc] using h)
    | ok pr1 =>
      rcases pr1 with ⟨tm1, children⟩
      simp only [hc] at h
      cases hr : createTreeGo pkgsMap child restIds keypath
          (tm1 ++ [(joinSlash (keypath ++ [pkg.id]),
            mkNode pkg (joinSlash (keypath ++ [pkg.id])) children keypath.length)]) with
      | error e => exact Except.noConfusion (by simpa only [hr] using h)
      | ok pr2 =>
        rcases pr2 with ⟨tm2, restRoots⟩
        simp only [hr] at h
        obtain ⟨h1, h2⟩ := Prod.mk.injEq .. ▸ Except.ok.injEq .. ▸ h
        rw [h1] at hr
        exact ⟨pkg, tm1, children, restRoots, rfl, hc, hr, h2.symm⟩

/-- `createTreeGo` only appends to the accumulator (given the same for the
descent function). -/
theorem createTreeGo_mono {pkgsMap : LinkedPackagesMap}
    {child : List String → List String → TreeMap → Except BuildErr (TreeMap × List String)}
    (hchild : ∀ ids K acc tm roots, child ids K acc = .ok (tm, roots) →
      ∃ new, tm = acc ++ new) :
    ∀ ids K acc tm roots,
      createTreeGo pkgsMap child ids K acc = .ok (tm, roots) →
      ∃ new, tm = acc ++ new := by
  intro ids
  induction ids with
  | nil =>
    intro K acc tm roots h
    simp only [createTreeGo] at h
    obtain ⟨h1, -⟩ := Prod.mk.injEq .. ▸ Except.ok.injEq .. ▸ h
    exact ⟨[], by rw [← h1]; simp⟩
  | cons pkgId rest ih =>
    intro K acc tm roots h
    obtain ⟨pkg, tm1, children, restRoots, hpk, hc, hrest, hroots⟩ :=
      createTreeGo_cons_ok h
    obtain ⟨n1, h1⟩ := hchild _ _ _ _ _ hc
    obtain ⟨n2, h2⟩ := ih _ _ _ _ hrest
    refine ⟨n1 ++ [(joinSlash (K ++ [pkg.id]),
      mkNode pkg (joinSlash (K ++ [pkg.id])) children K.length)] ++ n2, ?_⟩
    rw [h2, h1]
    simp

/-- `createTree` only appends to the accumulator. -/
theorem createTree_mono (pkgsMap : LinkedPackagesMap) :
    ∀ fuel ids K acc tm roots,
      createTree pkgsMap fuel ids K acc = .ok (tm, roots) →
      ∃ new, tm = acc ++ new := by
  intro fuel
  induction fuel with
  | zero =>
    intro ids K acc tm roots h
    exact Except.noConfusion (by simpa only [createTree] using h)
  | succ fuel ih =>
    intro ids K acc tm roots h
    rw [createTree] at h
    exact createTreeGo_mono (fun ids' K' acc' tm' roots' hh =>
      ih ids' K' acc' tm' roots' hh) _ _ _ _ _ h

/-- C1 termination core: with a well-formed package map and the pair
invariant, `createTree` never exhausts a fuel budget of
`2·|ids|² + 2` minus the current depth. -/
theorem createTree_no_fuelError (pkgsMap : LinkedPackagesMap)
    (hwf : WFMap pkgsMap) :
    ∀ fuel K, (∀ x ∈ K, x ∈ idKeys pkgsMap) → okK K →
      2 * ((idKeys pkgsMap).card * (idKeys pkgsMap).card) + 2 ≤ fuel + K.length →
      ∀ ids, (∀ P ∈ ids, okK (K ++ [P])) →
      ∀ acc, createTree pkgsMap fuel ids K acc ≠ .error .fuelExhausted := by
  intro fuel
  induction fuel with
  | zero =>
    intro K hmem hok hfuel ids hids acc
    have hbound := okK_length_bound (idKeys pkgsMap) K hmem hok
    omega
  | succ fuel ih =>
    intro K hmem hok hfuel ids hids acc
    rw [createTree]
    induction ids generalizing acc with
    | nil => simp [createTreeGo]
    | cons pkgId rest ihl =>
      cases hpk : lookupLast pkgsMap pkgId with
      | none => simp [createTreeGo, hpk]
      | some pkg =>
        have hid : pkg.id = pkgId := hwf _ _ hpk
        have hokP : okK (K ++ [pkg.id]) := by
          rw [hid]; exact hids pkgId (List.mem_cons_self _ _)
        have hmem' : ∀ x ∈ K ++ [pkg.id], x ∈ idKeys pkgsMap := by
          intro x hx
          rcases List.mem_append.mp hx with hx | hx
          · exact hmem x hx
          · have : x = pkg.id := by simpa using hx
            subst this
            rw [hid, idKeys, List.mem_toFinset]
            exact lookupLast_mem_keys hpk
        have hfuel' : 2 * ((idKeys pkgsMap).card * (idKeys pkgsMap).card) + 2 ≤
            fuel + (K ++ [pkg.id]).length := by
          rw [List.length_append, List.length_cons, List.length_nil]
          omega
        have hids' : ∀ D ∈ getNonCircularDependencies pkg.id pkg.dependencies K,
            okK ((K ++ [pkg.id]) ++ [D]) := by
          intro D hD
          refine okK_extend hokP ?_
          have := (List.mem_filter.mp hD).2
          simpa using this
        have hchild := ih (K ++ [pkg.id]) hmem' hokP hfuel'
          (getNonCircularDependencies pkg.id pkg.dependencies K) hids' acc
        simp only [createTreeGo, hpk]
        cases hc : createTree pkgsMap fuel
            (getNonCircularDependencies pkg.id pkg.dependencies K)
            (K ++ [pkg.id]) acc with
        | error e =>
          have he : e ≠ .fuelExhausted := by
            intro hEq; subst hEq; exact hchild hc
          simpa using he
        | ok pr1 =>
          rcases pr1 with ⟨tm1, children⟩
          have hrest := ihl (fun P hP => hids P (List.mem_cons_of_mem _ hP))
            (tm1 ++ [(joinSlash (K ++ [pkg.id]),
              mkNode pkg (joinSlash (K ++ [pkg.id])) children K.length)])
          cases hr : createTreeGo pkgsMap (createTree pkgsMap fuel) rest K
              (tm1 ++ [(joinSlash (K ++ [pkg.id]),
                mkNode pkg (joinSlash (K ++ [pkg.id])) children K.length)]) with
          | error e =>
            have he : e ≠ .fuelExhausted := by
              intro hEq; subst hEq; exact hrest hr
            simp only [hr]
            simpa using he
          | ok pr2 =>
            rcases pr2 with ⟨tm2, restRoots⟩
            simp [hr]

/-- Every keypath id in a result root list comes from some id of the input
list (its looked-up package appended to the keypath). -/
theorem createTreeGo_root_all {pkgsMap : LinkedPackagesMap}
    {child : List String → List String → TreeMap → Except BuildErr (TreeMap × List String)}
    {ids K : List String} {acc tm : TreeMap} {roots : List String}
    (h : createTreeGo pkgsMap child ids K acc = .ok (tm, roots)) :
    ∀ r ∈ roots, ∃ Q ∈ ids, ∃ pkg, lookupLast pkgsMap Q = some pkg ∧
      r = joinSlash (K ++ [pkg.id]) := by
  induction ids generalizing acc tm roots with
  | nil =>
    simp only [createTreeGo] at h
    obtain ⟨-, h2⟩ := Prod.mk.injEq .. ▸ Except.ok.injEq .. ▸ h
    rw [← h2]
    intro r hr
    exact absurd hr (List.not_mem_nil r)
  | cons Q rest ih =>
    obtain ⟨pkg, tm1, children, restRoots, hpk, hc, hrest, hroots⟩ :=
      createTreeGo_cons_ok h
    subst hroots
    intro r hr
    rcases List.mem_cons.mp hr with hr | hr
    · exact ⟨Q, List.mem_cons_self _ _, pkg, hpk, hr⟩
    · obtain ⟨Q', hQ', pkg', h1, h2⟩ := ih hrest r hr
      exact ⟨Q', List.mem_cons_of_mem _ hQ', pkg', h1, h2⟩

/-- Every id of the input list contributes its keypath id to the root list. -/
theorem createTreeGo_root_of_mem {pkgsMap : LinkedPackagesMap}
    {child : List String → List String → TreeMap → Except BuildErr (TreeMap × List String)}
    {ids K : List String} {acc tm : TreeMap} {roots : List String}
    (h : createTreeGo pkgsMap child ids K acc = .ok (tm, roots)) :
    ∀ Q ∈ ids, ∃ pkg, lookupLast pkgsMap Q = some pkg ∧
      joinSlash (K ++ [pkg.id]) ∈ roots := by
  induction ids generalizing acc tm roots with
  | nil =>
    intro Q hQ
    exact absurd hQ (List.not_mem_nil Q)
  | cons Q0 rest ih =>
    obtain ⟨pkg, tm1, children, restRoots, hpk, hc, hrest, hroots⟩ :=
      createTreeGo_cons_ok h
    subst hroots
    intro Q hQ
    rcases List.mem_cons.mp hQ with hQ | hQ
    · subst hQ
      exact ⟨pkg, hpk, List.mem_cons_self _ _⟩
    · obtain ⟨pkg', h1, h2⟩ := ih hrest Q hQ
      exact ⟨pkg', h1, List.mem_cons_of_mem _ h2⟩

/-- Every id of the input list is processed: its package is looked up, its
non-circular dependencies are descended into, and its node, whose children
are exactly the descent's keypath ids, is recorded in the final map;
the descent's map entries all survive into the final map. -/
theorem createTreeGo_processes {pkgsMap : LinkedPackagesMap}
    {child : List String → List String → TreeMap → Except BuildErr (TreeMap × List String)}
    (hchild_mono : ∀ ids' K' acc' tm' roots', child ids' K' acc' = .ok (tm', roots') →
      ∃ new, tm' = acc' ++ new) :
    ∀ {ids K : List String} {acc tm : TreeMap} {roots : List String},
      createTreeGo pkgsMap child ids K acc = .ok (tm, roots) →
      ∀ P ∈ ids, ∃ pkg acc2 tm1 children,
        lookupLast pkgsMap P = some pkg
        ∧ child (getNonCircularDependencies pkg.id pkg.dependencies K)
            (K ++ [pkg.id]) acc2 = .ok (tm1, children)
        ∧ (joinSlash (K ++ [pkg.id]),
            mkNode pkg (joinSlash (K ++ [pkg.id])) children K.length) ∈ tm
        ∧ (∀ e ∈ tm1, e ∈ tm) := by
  intro ids
  induction ids with
  | nil =>
    intro K acc tm roots h P hP
    exact absurd hP (List.not_mem_nil P)
  | cons Q rest ih =>
    intro K acc tm roots h P hP
    obtain ⟨pkg, tm1, children, restRoots, hpk, hc, hrest, hroots⟩ :=
      createTreeGo_cons_ok h
    obtain ⟨new2, h2⟩ := createTreeGo_mono hchild_mono _ _ _ _ _ hrest
    rcases List.mem_cons.mp hP with hP | hP
    · subst hP
      refine ⟨pkg, acc, tm1, children, hpk, hc, ?_, ?_⟩
      · rw [h2]
        simp
      · intro e he
        rw [h2]
        simp [he]
    · obtain ⟨pkg', acc2, tm1', children', h1', h2', h3', h4'⟩ := ih hrest P hP
      exact ⟨pkg', acc2, tm1', children', h1', h2', h3', h4'⟩

/-- `createTree`-level wrapper of `createTreeGo_root_all`. -/
theorem createTree_root_all {pkgsMap : LinkedPackagesMap} {fuel : Nat}
    {ids K : List String} {acc tm : TreeMap} {roots : List String}
    (h : createTree pkgsMap fuel ids K acc = .ok (tm, roots)) :
    ∀ r ∈ roots, ∃ Q ∈ ids, ∃ pkg, lookupLast pkgsMap Q = some pkg ∧
      r = joinSlash (K ++ [pkg.id]) := by
  cases fuel with
  | zero => exact Except.noConfusion (by simpa only [createTree] using h)
  | succ fuel =>
    rw [createTree] at h
    exact createTreeGo_root_all h

/-- `createTree`-level wrapper of `createTreeGo_root_of_mem`. -/
theorem createTree_root_of_mem {pkgsMap : LinkedPackagesMap} {fuel : Nat}
    {ids K : List String} {acc tm : TreeMap} {roots : List String}
    (h : createTree pkgsMap fuel ids K acc = .ok (tm, roots)) :
    ∀ Q ∈ ids, ∃ pkg, lookupLast pkgsMap Q = some pkg ∧
      joinSlash (K ++ [pkg.id]) ∈ roots := by
  cases fuel with
  | zero => exact Except.noConfusion (by simpa only [createTree] using h)
  | succ fuel =>
    rw [createTree] at h
    exact createTreeGo_root_of_mem h

/-- `createTree`-level wrapper of `createTreeGo_processes`: the descent of
each processed id happens at one less fuel. -/
theorem createTree_processes {pkgsMap : LinkedPackagesMap} {fuel : Nat}
    {ids K : List String} {acc tm : TreeMap} {roots : List String}
    (h : createTree pkgsMap fuel ids K acc = .ok (tm, roots)) :
    ∀ P ∈ ids, ∃ pkg acc2 tm1 children,
      lookupLast pkgsMap P = some pkg
      ∧ createTree pkgsMap (fuel - 1)
          (getNonCircularDependencies pkg.id pkg.dependencies K)
          (K ++ [pkg.id]) acc2 = .ok (tm1, children)
      ∧ (joinSlash (K ++ [pkg.id]),
          mkNode pkg (joinSlash (K ++ [pkg.id])) children K.length) ∈ tm
      ∧ (∀ e ∈ tm1, e ∈ tm) := by
  cases fuel with
  | zero => exact Except.noConfusion (by simpa only [createTree] using h)
  | succ fuel =>
    rw [createTree] at h
    exact createTreeGo_processes
      (fun ids' K' acc' tm' roots' hh => createTree_mono pkgsMap fuel ids' K' acc' tm' roots' hh)
      h

theorem joinSlash_concat (L : List String) (x : String) (hL : L ≠ []) :
    joinSlash (L ++ [x]) = joinSlash L ++ "/" ++ x := by
  induction L with
  | nil => exact absurd rfl hL
  | cons a t ih =>
    cases t with
    | nil => rfl
    | cons b t' =>
      have h1 : (a :: b :: t') ++ [x] = a :: ((b :: t') ++ [x]) := rfl
      rw [h1]
      show a ++ "/" ++ joinSlash ((b :: t') ++ [x]) = _
      rw [ih (by simp)]
      show _ = (a ++ "/" ++ joinSlash (b :: t')) ++ "/" ++ x
      simp [String.append_assoc]

theorem string_append_left_cancel {s x y : String} (h : s ++ x = s ++ y) :
    x = y := by
  have hd := congrArg String.data h
  rw [String.data_append, String.data_append] at hd
  have h2 := List.append_cancel_left hd
  cases x; cases y
  exact congrArg String.mk h2

/-- A well-formed map follows from the entry-wise id condition. -/
theorem lookupLast_mem_pair {α : Type} {m : List (String × α)} {k : String} {v : α}
    (h : lookupLast m k = some v) : (k, v) ∈ m := by
  induction m with
  | nil => simp [lookupLast] at h
  | cons e rest ih =>
    rw [lookupLast] at h
    cases hr : lookupLast rest k with
    | some v' =>
      rw [hr] at h
      cases h
      exact List.mem_cons_of_mem _ (ih hr)
    | none =>
      rw [hr] at h
      by_cases hk : e.1 = k
      · rw [if_pos hk] at h
        cases h
        rcases e with ⟨k', v'⟩
        cases hk
        exact List.mem_cons_self _ _
      · rw [if_neg hk] at h; cases h

theorem WFMap_of_entries {m : LinkedPackagesMap}
    (h : ∀ e ∈ m, e.2.id = e.1) : WFMap m :=
  fun _ _ hlk => h _ (lookupLast_mem_pair hlk)

/-- Package `a` of the concrete two-package cycle (depends on `b`). -/
def cyclePkgA : LinkedPackage :=
  { id := "a",
    pkg := { name := "A", version := "1.0.0", peerDependencies := none,
             bundledDependencies := none, bundleDependencies := none },
    localLocation := "nm/.a", path := "store/a", fetchingFiles := false,
    dependencies := ["b"] }

/-- Package `b` of the concrete two-package cycle (depends on `a`). -/
def cyclePkgB : LinkedPackage :=
  { id := "b",
    pkg := { name := "B", version := "1.0.0", peerDependencies := none,
             bundledDependencies := none, bundleDependencies := none },
    localLocation := "nm/.b", path := "store/b", fetchingFiles := false,
    dependencies := ["a"] }

/-- The concrete package map with the direct cycle a→b→a. -/
def cycleMap : LinkedPackagesMap := [("a", cyclePkgA), ("b", cyclePkgB)]

/-- Tree map produced by building from root `a` over `cycleMap`. -/
def cycleTm : TreeMap :=
  match createTree cycleMap (treeFuel cycleMap) ["a"] [] [] with
  | .ok (tm, _) => tm
  | .error _ => []

/-- Root keypath ids of the same run. -/
def cycleRoots : List String :=
  match createTree cycleMap (treeFuel cycleMap) ["a"] [] [] with
  | .ok (_, r) => r
  | .error _ => []

/-- C1 counterexample: in the concrete cycle a→b→a built from root `a`, the
node for `b` (keypath `a/b`) has a child that is an occurrence of `a`
(keypath `a/b/a`, package id `a`) — the claim's "B's children set excludes A
(the back-edge is cut)" is false on the code; the cycle is instead cut one
level deeper: the second occurrence of `a` has no children. -/
theorem c1_cycle_cut_counterexample :
    createTree cycleMap (treeFuel cycleMap) ["a"] [] [] = .ok (cycleTm, cycleRoots)
    ∧ cycleRoots = ["a"]
    ∧ (lookupLast cycleTm "a").map (fun n => n.children) = some ["a/b"]
    ∧ (lookupLast cycleTm "a/b").map (fun n => n.children) = some ["a/b/a"]
    ∧ (lookupLast cycleTm "a/b/a").map (fun n => n.id) = some "a"
    ∧ (lookupLast cycleTm "a/b/a").map (fun n => n.children) = some [] :=
  ⟨rfl, by decide, by decide, by decide, by decide, by decide⟩

/-- C1 (amended): for every well-formed package map containing a direct
cycle A→B→A (A ≠ B), building the tree from root A terminates (the recursion
budget `treeFuel` is never exhausted); in a successful run, A's top-level
children include the occurrence `A/B` of B, B's children still include a
second occurrence `A/B/A` of A — the back-edge is *not* cut at B — and that
second occurrence has the B-edge cut: `A/B/A/B` is not among its children;
in general a dependency edge (current node id, child id) is excluded exactly
when that pair already occurs as an adjacent pair in the ancestor keypath. -/
theorem c1_cycle_safety_amended (pkgsMap : LinkedPackagesMap) (A B : String)
    (pa pb : LinkedPackage) (hwf : WFMap pkgsMap) (hAB : A ≠ B)
    (hA : lookupLast pkgsMap A = some pa) (hB : lookupLast pkgsMap B = some pb)
    (hdepA : B ∈ pa.dependencies) (hdepB : A ∈ pb.dependencies) :
    (createTree pkgsMap (treeFuel pkgsMap) [A] [] [] ≠ .error .fuelExhausted)
    ∧ (∀ tm roots, createTree pkgsMap (treeFuel pkgsMap) [A] [] [] = .ok (tm, roots) →
        (A ∈ roots ∧ ∀ r ∈ roots, r = A)
        ∧ (∃ na, (A, na) ∈ tm ∧ na.id = A ∧ joinSlash [A, B] ∈ na.children)
        ∧ (∃ nb, (joinSlash [A, B], nb) ∈ tm ∧ nb.id = B
            ∧ joinSlash [A, B, A] ∈ nb.children)
        ∧ (∃ na2, (joinSlash [A, B, A], na2) ∈ tm ∧ na2.id = A
            ∧ joinSlash [A, B, A, B] ∉ na2.children))
    ∧ (∀ parentId depIds keypath depId,
        depId ∈ getNonCircularDependencies parentId depIds keypath ↔
          depId ∈ depIds ∧ (parentId, depId) ∉ aperture2 keypath) := by
  have hidA : pa.id = A := hwf _ _ hA
  have hidB : pb.id = B := hwf _ _ hB
  refine ⟨?_, ?_, ?_⟩
  · -- termination
    have hcard : (idKeys pkgsMap).card ≤ pkgsMap.length := by
      have h := List.toFinset_card_le (pkgsMap.map Prod.fst)
      simpa [idKeys] using h
    refine createTree_no_fuelError pkgsMap hwf (treeFuel pkgsMap) [] (by simp)
      okK_nil ?_ [A] ?_ []
    · rw [treeFuel, pow_two]
      have hcc := Nat.mul_le_mul hcard hcard
      omega
    · intro P hP
      have hPA : P = A := by simpa using hP
      subst hPA
      exact okK_single P
  · -- tree shape
    intro tm roots hrun
    obtain ⟨pkgA', accA, tmA, childrenA, hpkA, hcA, hentA, hsubA⟩ :=
      createTree_processes hrun A (List.mem_cons_self _ _)
    rw [hA] at hpkA
    cases hpkA
    rw [hidA] at hcA hentA
    have hfilterA : getNonCircularDependencies A pa.dependencies [] = pa.dependencies := by
      simp [getNonCircularDependencies, aperture2]
    refine ⟨⟨?_, ?_⟩, ?_, ?_, ?_⟩
    · -- A ∈ roots
      obtain ⟨pkg, hpk, hmem⟩ := createTree_root_of_mem hrun A (List.mem_cons_self _ _)
      rw [hA] at hpk
      cases hpk
      rw [hidA] at hmem
      exact hmem
    · -- all roots are A
      intro r hr
      obtain ⟨Q, hQ, pkg, hpk, hr'⟩ := createTree_root_all hrun r hr
      have hQA : Q = A := by simpa using hQ
      subst hQA
      rw [hA] at hpk
      cases hpk
      rw [hr', hidA]
      rfl
    · -- A's children include A/B
      refine ⟨_, hentA, hidA, ?_⟩
      show joinSlash [A, B] ∈ childrenA
      rw [hfilterA] at hcA
      obtain ⟨pkg, hpk, hmem⟩ := createTree_root_of_mem hcA B hdepA
      rw [hB] at hpk
      cases hpk
      rw [hidB] at hmem
      exact hmem
    · -- B's children include A/B/A
      rw [hfilterA] at hcA
      obtain ⟨pkgB', accB, tmB, childrenB, hpkB, hcB, hentB, hsubB⟩ :=
        createTree_processes hcA B hdepA
      rw [hB] at hpkB
      cases hpkB
      rw [hidB] at hcB hentB
      have hfilterB : getNonCircularDependencies B pb.dependencies ([] ++ [A])
          = pb.dependencies := by
        simp [getNonCircularDependencies, aperture2]
      refine ⟨_, hsubA _ hentB, hidB, ?_⟩
      show joinSlash [A, B, A] ∈ childrenB
      rw [hfilterB] at hcB
      obtain ⟨pkg, hpk, hmem⟩ := createTree_root_of_mem hcB A hdepB
      rw [hA] at hpk
      cases hpk
      rw [hidA] at hmem
      exact hmem
    · -- the second occurrence of A has the B edge cut
      rw [hfilterA] at hcA
      obtain ⟨pkgB', accB, tmB, childrenB, hpkB, hcB, hentB, hsubB⟩ :=
        createTree_processes hcA B hdepA
      rw [hB] at hpkB
      cases hpkB
      rw [hidB] at hcB hentB
      have hfilterB : getNonCircularDependencies B pb.dependencies ([] ++ [A])
          = pb.dependencies := by
        simp [getNonCircularDependencies, aperture2]
      rw [hfilterB] at hcB
      obtain ⟨pkgA2, accA2, tmA2, children2, hpkA2, hcA2, hentA2, hsubA2⟩ :=
        createTree_processes hcB A hdepB
      rw [hA] at hpkA2
      cases hpkA2
      rw [hidA] at hcA2 hentA2
      refine ⟨_, hsubA _ (hsubB _ hentA2), hidA, ?_⟩
      show joinSlash [A, B, A, B] ∉ children2
      intro hmem
      obtain ⟨Q, hQ, pkg', hpk', hr'⟩ := createTree_root_all hcA2 _ hmem
      -- the produced keypath id forces pkg'.id = B
      have hK3 : ((([] : List String) ++ [A]) ++ [B]) ++ [A] = [A, B, A] := rfl
      have hne : ([A, B, A] : List String) ≠ [] := by simp
      rw [hK3] at hr'
      have heq : joinSlash ([A, B, A] ++ [B]) = joinSlash ([A, B, A] ++ [pkg'.id]) := by
        rw [← hr']
        rfl
      rw [joinSlash_concat _ _ hne, joinSlash_concat _ _ hne] at heq
      have hBid : B = pkg'.id := string_append_left_cancel heq
      have hQid : pkg'.id = Q := hwf _ _ hpk'
      have hQB : Q = B := by rw [← hQid, ← hBid]
      rw [hQB] at hQ
      -- but B was filtered out of the third-level dependencies
      have hcontains := (List.mem_filter.mp hQ).2
      have hmempair : ((A, B) : String × String) ∈
          aperture2 ((([] : List String) ++ [A]) ++ [B]) := by
        show ((A, B) : String × String) ∈ [(A, B)]
        simp
      simp only [Bool.not_eq_true'] at hcontains
      rw [show ((aperture2 ((([] : List String) ++ [A]) ++ [B])).contains (A, B) = false)
          ↔ ((A, B) ∉ aperture2 ((([] : List String) ++ [A]) ++ [B])) from by
        simp] at hcontains
      exact hcontains hmempair
  · -- the exclusion condition
    intro parentId depIds keypath depId
    simp [getNonCircularDependencies, List.mem_filter]

/-- Closed witness for `c1_cycle_safety_amended` at the concrete cycle map. -/
theorem c1_cycle_safety_amended_witness :
    (createTree cycleMap (treeFuel cycleMap) ["a"] [] [] ≠ .error .fuelExhausted)
    ∧ (∀ tm roots, createTree cycleMap (treeFuel cycleMap) ["a"] [] [] = .ok (tm, roots) →
        ("a" ∈ roots ∧ ∀ r ∈ roots, r = "a")
        ∧ (∃ na, ("a", na) ∈ tm ∧ na.id = "a" ∧ joinSlash ["a", "b"] ∈ na.children)
        ∧ (∃ nb, (joinSlash ["a", "b"], nb) ∈ tm ∧ nb.id = "b"
            ∧ joinSlash ["a", "b", "a"] ∈ nb.children)
        ∧ (∃ na2, (joinSlash ["a", "b", "a"], na2) ∈ tm ∧ na2.id = "a"
            ∧ joinSlash ["a", "b", "a", "b"] ∉ na2.children))
    ∧ (∀ parentId depIds keypath depId,
        depId ∈ getNonCircularDependencies parentId depIds keypath ↔
          depId ∈ depIds ∧ (parentId, depId) ∉ aperture2 keypath) :=
  c1_cycle_safety_amended cycleMap "a" "b" cyclePkgA cyclePkgB
    (WFMap_of_entries (by decide)) (by decide) (by decide) (by decide)
    (by decide) (by decide)

/-! ### C8: resolved-map completeness and disjointness

Keypath ids are slash-joins of id sequences, so two distinct id sequences can
collide when ids contain `/` (as real package ids do).  The claim fails on
such collisions; under slash-free nonempty ids (plus duplicate-free top ids
and dependency lists) it holds. -/

/-- An id usable in unambiguous keypath joins: nonempty and slash-free. -/
def goodId (x : String) : Prop := x ≠ "" ∧ '/' ∉ x.data

instance (x : String) : Decidable (goodId x) :=
  inferInstanceAs (Decidable (x ≠ "" ∧ '/' ∉ x.data))

theorem splitFirstSlash {u v : List Char} {r s : List Char}
    (hu : '/' ∉ u) (hv : '/' ∉ v)
    (h : u ++ '/' :: r = v ++ '/' :: s) : u = v ∧ r = s := by
  induction u generalizing v with
  | nil =>
    cases v with
    | nil => simpa using h
    | cons c v' =>
      rw [List.nil_append, List.cons_append] at h
      have hc : c = '/' := (List.cons.injEq .. ▸ h).1.symm
      exact absurd (hc ▸ List.mem_cons_self c v') hv
  | cons c u' ih =>
    cases v with
    | nil =>
      rw [List.nil_append, List.cons_append] at h
      have hc : c = '/' := (List.cons.injEq .. ▸ h).1
      exact absurd (hc ▸ List.mem_cons_self c u') hu
    | cons d v' =>
      rw [List.cons_append, List.cons_append] at h
      obtain ⟨hcd, htail⟩ := List.cons.injEq .. ▸ h
      have hu' : '/' ∉ u' := fun hm => hu (List.mem_cons_of_mem _ hm)
      have hv' : '/' ∉ v' := fun hm => hv (List.mem_cons_of_mem _ hm)
      obtain ⟨h1, h2⟩ := ih hu' hv' htail
      exact ⟨by rw [hcd, h1], h2⟩

theorem data_append_slash (x J : String) :
    (x ++ "/" ++ J).data = x.data ++ '/' :: J.data := by
  rw [String.data_append, String.data_append]
  simp

theorem joinSlash_inj : ∀ (L1 L2 : List String),
    (∀ x ∈ L1, goodId x) → (∀ x ∈ L2, goodId x) →
    joinSlash L1 = joinSlash L2 → L1 = L2
  | [], [], _, _, _ => rfl
  | [], y :: t2, _, h2, heq => by
    exact absurd heq.symm (joinSlash_ne_empty y t2 (h2 y (List.mem_cons_self _ _)).1)
  | x :: t1, [], h1, _, heq => by
    exact absurd heq (joinSlash_ne_empty x t1 (h1 x (List.mem_cons_self _ _)).1)
  | [x], [y], _, _, heq => by rw [show x = y from heq]
  | [x], y :: b :: t2, h1, h2, heq => by
    exfalso
    have hx : joinSlash [x] = x := rfl
    rw [hx] at heq
    have hd := congrArg String.data heq
    rw [show joinSlash (y :: b :: t2) = y ++ "/" ++ joinSlash (b :: t2) from rfl,
      data_append_slash] at hd
    have : '/' ∈ x.data := by
      rw [hd]
      exact List.mem_append_right _ (List.mem_cons_self _ _)
    exact (h1 x (List.mem_cons_self _ _)).2 this
  | x :: a :: t1, [y], h1, h2, heq => by
    exfalso
    have hy : joinSlash [y] = y := rfl
    rw [hy] at heq
    have hd := congrArg String.data heq.symm
    rw [show joinSlash (x :: a :: t1) = x ++ "/" ++ joinSlash (a :: t1) from rfl,
      data_append_slash] at hd
    have : '/' ∈ y.data := by
      rw [hd]
      exact List.mem_append_right _ (List.mem_cons_self _ _)
    exact (h2 y (List.mem_cons_self _ _)).2 this
  | x :: a :: t1, y :: b :: t2, h1, h2, heq => by
    have hd := congrArg String.data heq
    rw [show joinSlash (x :: a :: t1) = x ++ "/" ++ joinSlash (a :: t1) from rfl,
      show joinSlash (y :: b :: t2) = y ++ "/" ++ joinSlash (b :: t2) from rfl,
      data_append_slash, data_append_slash] at hd
    obtain ⟨hxy, htail⟩ := splitFirstSlash
      (h1 x (List.mem_cons_self _ _)).2 (h2 y (List.mem_cons_self _ _)).2 hd
    have hx : x = y := by
      cases x; cases y; exact congrArg String.mk hxy
    have hJ : joinSlash (a :: t1) = joinSlash (b :: t2) := by
      have ha : (joinSlash (a :: t1)).data = (joinSlash (b :: t2)).data := htail
      cases hja : joinSlash (a :: t1)
      cases hjb : joinSlash (b :: t2)
      rw [hja, hjb] at ha
      exact congrArg String.mk ha
    have ht := joinSlash_inj (a :: t1) (b :: t2)
      (fun z hz => h1 z (List.mem_cons_of_mem _ hz))
      (fun z hz => h2 z (List.mem_cons_of_mem _ hz)) hJ
    rw [hx, ht]

/-- With duplicate-free keys, membership determines `lookupLast`. -/
theorem lookupLast_eq_none_of_not_mem {α : Type} {m : List (String × α)}
    {k : String} (h : k ∉ m.map Prod.fst) : lookupLast m k = none := by
  cases hl : lookupLast m k with
  | none => rfl
  | some v => exact absurd (lookupLast_mem_keys hl) h

theorem lookupLast_eq_of_mem_nodup {α : Type} {m : List (String × α)}
    {k : String} {v : α} (hnd : (m.map Prod.fst).Nodup) (hmem : (k, v) ∈ m) :
    lookupLast m k = some v := by
  induction m with
  | nil => exact absurd hmem (List.not_mem_nil _)
  | cons e rest ih =>
    rw [List.map_cons, List.nodup_cons] at hnd
    rcases List.mem_cons.mp hmem with hmem | hmem
    · subst hmem
      have hnone : lookupLast rest k = none := by
        apply lookupLast_eq_none_of_not_mem
        simpa using hnd.1
      rw [lookupLast, hnone]
      simp
    · have := ih hnd.2 hmem
      rw [lookupLast, this]

/-- Structure of a successful `resolvePeersOfNodeGo` step on a nonempty key
list. -/
theorem resolvePeersOfNodeGo_cons_ok
    {child : String → (String → Option DependencyTree) →
      Except BuildErr (ResolvedTreeMap × List Warning)}
    {k : String} {rest : List String} {p : String → Option DependencyTree}
    {entries : ResolvedTreeMap} {ws : List Warning}
    (h : resolvePeersOfNodeGo child (k :: rest) p = .ok (entries, ws)) :
    ∃ es1 ws1 es2 ws2,
      child k p = .ok (es1, ws1)
      ∧ resolvePeersOfNodeGo child rest p = .ok (es2, ws2)
      ∧ entries = es1 ++ es2 ∧ ws = ws1 ++ ws2 := by
  cases hc : child k p with
  | error e => exact Except.noConfusion (by simpa only [resolvePeersOfNodeGo, hc] using h)
  | ok pr1 =>
    rcases pr1 with ⟨es1, ws1⟩
    simp only [resolvePeersOfNodeGo, hc] at h
    cases hr : resolvePeersOfNodeGo child rest p with
    | error e => exact Except.noConfusion (by simpa only [hr] using h)
    | ok pr2 =>
      rcases pr2 with ⟨es2, ws2⟩
      simp only [hr] at h
      obtain ⟨h1, h2⟩ := Prod.mk.injEq .. ▸ Except.ok.injEq .. ▸ h
      exact ⟨es1, ws1, es2, ws2, rfl, rfl, h1.symm, h2.symm⟩

/-- A successful `resolvePeersOfNode` run implies its children lookups
succeeded. -/
theorem resolvePeersOfNode_ok_propsE {s : String → String → Bool} {tm : TreeMap}
    {fuel : Nat} {k : String} {p : String → Option DependencyTree}
    {entries : ResolvedTreeMap} {ws : List Warning} {node : DependencyTree}
    (hrun : resolvePeersOfNode s tm (fuel + 1) k p = .ok (entries, ws))
    (hnode : lookupLast tm k = some node) :
    ∃ childNodes, propsE tm node.children = .ok childNodes := by
  simp only [resolvePeersOfNode, hnode] at hrun
  cases hp : propsE tm node.children with
  | error e => exact Except.noConfusion (by simpa only [hp] using hrun)
  | ok childNodes => exact ⟨childNodes, rfl⟩

/-- No key of `acc` is a keypath extension of `K` through one of `ids`. -/
def NoExt (acc : TreeMap) (ids K : List String) : Prop :=
  ∀ k ∈ acc.map Prod.fst, ∀ P ∈ ids, ∀ T,
    (∀ x ∈ P :: T, goodId x) → k ≠ joinSlash (K ++ P :: T)

/-- Every key of `tm` is either a key of `acc` or a keypath extension of `K`
through one of `ids` by good ids. -/
def KeysShape (tm acc : TreeMap) (ids K : List String) : Prop :=
  ∀ k ∈ tm.map Prod.fst, k ∈ acc.map Prod.fst ∨
    ∃ P ∈ ids, ∃ T, (∀ x ∈ P :: T, goodId x) ∧ k = joinSlash (K ++ P :: T)

theorem createTreeGo_keys_nodup (pkgsMap : LinkedPackagesMap)
    (hwf : WFMap pkgsMap)
    (hgood : ∀ k ∈ pkgsMap.map Prod.fst, goodId k)
    (hdeps : ∀ e ∈ pkgsMap, e.2.dependencies.Nodup)
    {child : List String → List String → TreeMap → Except BuildErr (TreeMap × List String)}
    (hchild : ∀ ids K acc tm roots, child ids K acc = .ok (tm, roots) →
      ids.Nodup → (∀ x ∈ K, goodId x) → (acc.map Prod.fst).Nodup →
      NoExt acc ids K →
      (tm.map Prod.fst).Nodup ∧ KeysShape tm acc ids K) :
    ∀ ids K acc tm roots,
      createTreeGo pkgsMap child ids K acc = .ok (tm, roots) →
      ids.Nodup → (∀ x ∈ K, goodId x) → (acc.map Prod.fst).Nodup →
      NoExt acc ids K →
      (tm.map Prod.fst).Nodup ∧ KeysShape tm acc ids K := by
  intro ids
  induction ids with
  | nil =>
    intro K acc tm roots h _ _ haccnd _
    simp only [createTreeGo] at h
    obtain ⟨h1, -⟩ := Prod.mk.injEq .. ▸ Except.ok.injEq .. ▸ h
    subst h1
    exact ⟨haccnd, fun k hk => Or.inl hk⟩
  | cons P rest ih =>
    intro K acc tm roots h hnd hK haccnd hnoext
    obtain ⟨pkg, tm1, children, restRoots, hpk, hc, hrest, hroots⟩ :=
      createTreeGo_cons_ok h
    have hidP : pkg.id = P := hwf _ _ hpk
    rw [hidP] at hc hrest
    have hgoodP : goodId P := hgood P (lookupLast_mem_keys hpk)
    have hgoodPcons : ∀ (T : List String), (∀ x ∈ T, goodId x) →
        ∀ x ∈ P :: T, goodId x := by
      intro T hT x hx
      rcases List.mem_cons.mp hx with hx | hx
      · exact hx ▸ hgoodP
      · exact hT x hx
    have hdepnd : pkg.dependencies.Nodup := by
      obtain ⟨e, he, hev⟩ := List.mem_map.mp (lookupLast_mem_values hpk)
      have hd := hdeps e he
      rw [hev] at hd
      exact hd
    have hKP : ∀ x ∈ K ++ [P], goodId x := by
      intro x hx
      rcases List.mem_append.mp hx with hx | hx
      · exact hK x hx
      · have hxP : x = P := by simpa using hx
        exact hxP ▸ hgoodP
    have hassoc : ∀ (D : String) (T : List String),
        (K ++ [P]) ++ D :: T = K ++ P :: D :: T := by
      intro D T
      simp
    obtain ⟨htm1nd, hshape1⟩ := hchild
      (getNonCircularDependencies P pkg.dependencies K) (K ++ [P]) acc tm1 children hc
      (List.Nodup.filter _ hdepnd) hKP haccnd
      (by
        intro k hk D hD T hgoodT
        rw [hassoc]
        exact hnoext k hk P (List.mem_cons_self _ _) (D :: T)
          (hgoodPcons (D :: T) hgoodT))
    have hgoodKPT : ∀ (D : String) (T : List String), (∀ x ∈ D :: T, goodId x) →
        ∀ x ∈ K ++ P :: D :: T, goodId x := by
      intro D T hgoodT x hx
      rcases List.mem_append.mp hx with hx | hx
      · exact hK x hx
      · rcases List.mem_cons.mp hx with hx | hx
        · exact hx ▸ hgoodP
        · exact hgoodT x hx
    have hkid_notin_tm1 : joinSlash (K ++ [P]) ∉ tm1.map Prod.fst := by
      intro hmem
      rcases hshape1 _ hmem with hmemacc | ⟨D, hD, T, hgoodT, hkeq⟩
      · exact hnoext _ hmemacc P (List.mem_cons_self _ _) []
          (hgoodPcons [] (by intro x hx; exact absurd hx (List.not_mem_nil x))) rfl
      · rw [hassoc] at hkeq
        have hlists := joinSlash_inj (K ++ [P]) (K ++ P :: D :: T)
          hKP (hgoodKPT D T hgoodT) hkeq
        have hlen := congrArg List.length hlists
        simp at hlen
    -- the accumulator for the remaining siblings
    have hacc2nd : ((tm1 ++ [(joinSlash (K ++ [P]),
        mkNode pkg (joinSlash (K ++ [P])) children K.length)]).map Prod.fst).Nodup := by
      rw [List.map_append]
      rw [List.nodup_append]
      refine ⟨htm1nd, by simp, ?_⟩
      intro a ha hb
      have hab : a = joinSlash (K ++ [P]) := by simpa using hb
      exact hkid_notin_tm1 (hab ▸ ha)
    have hnoext2 : NoExt (tm1 ++ [(joinSlash (K ++ [P]),
        mkNode pkg (joinSlash (K ++ [P])) children K.length)]) rest K := by
      intro k hk P' hP' T hgoodT
      rw [List.map_append] at hk
      intro hkeq
      have hPne : P ≠ P' := by
        intro hPP
        rw [hPP] at hnd
        exact (List.nodup_cons.mp hnd).1 hP'
      rcases List.mem_append.mp hk with hk | hk
      · rcases hshape1 _ hk with hkacc | ⟨D, hD, T1, hgoodT1, hk1⟩
        · exact hnoext k hkacc P' (List.mem_cons_of_mem _ hP') T hgoodT hkeq
        · rw [hassoc] at hk1
          rw [hk1] at hkeq
          have hlists := joinSlash_inj (K ++ P :: D :: T1) (K ++ P' :: T)
            (hgoodKPT D T1 hgoodT1)
            (by
              intro x hx
              rcases List.mem_append.mp hx with hx | hx
              · exact hK x hx
              · exact hgoodT x hx)
            hkeq
          have := List.append_cancel_left hlists
          exact hPne (List.cons.injEq .. ▸ this).1
      · have hkkid : k = joinSlash (K ++ [P]) := by simpa using hk
        rw [hkkid] at hkeq
        have hlists := joinSlash_inj (K ++ [P]) (K ++ P' :: T)
          hKP
          (by
            intro x hx
            rcases List.mem_append.mp hx with hx | hx
            · exact hK x hx
            · exact hgoodT x hx)
          hkeq
        have := List.append_cancel_left hlists
        exact hPne (List.cons.injEq .. ▸ this).1
    obtain ⟨htmnd, hshape2⟩ := ih K _ tm restRoots hrest
      (List.nodup_cons.mp hnd).2 hK hacc2nd hnoext2
    refine ⟨htmnd, ?_⟩
    intro k hk
    rcases hshape2 k hk with hk2 | ⟨P', hP', T, hgoodT, hkeq⟩
    · rw [List.map_append] at hk2
      rcases List.mem_append.mp hk2 with hk2 | hk2
      · rcases hshape1 _ hk2 with hkacc | ⟨D, hD, T1, hgoodT1, hk1⟩
        · exact Or.inl hkacc
        · refine Or.inr ⟨P, List.mem_cons_self _ _, D :: T1,
            hgoodPcons (D :: T1) hgoodT1, ?_⟩
          rw [hk1, hassoc]
      · have hkkid : k = joinSlash (K ++ [P]) := by simpa using hk2
        exact Or.inr ⟨P, List.mem_cons_self _ _, [],
          hgoodPcons [] (by intro x hx; exact absurd hx (List.not_mem_nil x)), hkkid⟩
    · exact Or.inr ⟨P', List.mem_cons_of_mem _ hP', T, hgoodT, hkeq⟩

/-- `createTree`-level: under a well-formed map with good ids and
duplicate-free dependency lists, all recorded keypath ids are distinct. -/
theorem createTree_keys_nodup (pkgsMap : LinkedPackagesMap)
    (hwf : WFMap pkgsMap)
    (hgood : ∀ k ∈ pkgsMap.map Prod.fst, goodId k)
    (hdeps : ∀ e ∈ pkgsMap, e.2.dependencies.Nodup) :
    ∀ fuel ids K acc tm roots,
      createTree pkgsMap fuel ids K acc = .ok (tm, roots) →
      ids.Nodup → (∀ x ∈ K, goodId x) → (acc.map Prod.fst).Nodup →
      NoExt acc ids K →
      (tm.map Prod.fst).Nodup ∧ KeysShape tm acc ids K := by
  intro fuel
  induction fuel with
  | zero =>
    intro ids K acc tm roots h
    exact absurd h (by simp [createTree])
  | succ fuel ihf =>
    intro ids K acc tm roots h
    rw [createTree] at h
    exact createTreeGo_keys_nodup pkgsMap hwf hgood hdeps
      (fun ids' K' acc' tm' roots' hh => ihf ids' K' acc' tm' roots' hh)
      ids K acc tm roots h

/-- The peer resolver visits exactly the keypath ids the tree builder
recorded: on a tree map with duplicate-free keys, a successful resolver run
over the roots of a successful (sub)build produces entries whose key list is
a permutation of the keys that build added. -/
theorem resolver_keys_perm (pkgsMap : LinkedPackagesMap)
    (s : String → String → Bool) (tm : TreeMap)
    (hnd : (tm.map Prod.fst).Nodup) :
    ∀ fuelT ids K acc tmsub roots,
      createTree pkgsMap fuelT ids K acc = .ok (tmsub, roots) →
      (∀ e ∈ tmsub, e ∈ tm) →
      ∀ fuelR p entries ws,
        resolvePeersOfNodeGo (resolvePeersOfNode s tm fuelR) roots p
          = .ok (entries, ws) →
        ∃ new, tmsub = acc ++ new
          ∧ (entries.map Prod.fst).Perm (new.map Prod.fst) := by
  intro fuelT
  induction fuelT with
  | zero =>
    intro ids K acc tmsub roots h
    exact absurd h (by simp [createTree])
  | succ fuelT ihf =>
    intro ids
    induction ids with
    | nil =>
      intro K acc tmsub roots h hsub fuelR p entries ws hres
      rw [createTree] at h
      simp only [createTreeGo] at h
      obtain ⟨h1, h2⟩ := Prod.mk.injEq .. ▸ Except.ok.injEq .. ▸ h
      subst h1
      rw [← h2] at hres
      simp only [resolvePeersOfNodeGo] at hres
      obtain ⟨h3, -⟩ := Prod.mk.injEq .. ▸ Except.ok.injEq .. ▸ hres
      subst h3
      exact ⟨[], by simp, by simp⟩
    | cons P rest ihl =>
      intro K acc tmsub roots h hsub fuelR p entries ws hres
      rw [createTree] at h
      obtain ⟨pkg, tm1, children, restRoots, hpk, hc, hrest, hroots⟩ :=
        createTreeGo_cons_ok h
      subst hroots
      obtain ⟨es1, ws1, es2, ws2, hn, hgo2, hent, hws⟩ :=
        resolvePeersOfNodeGo_cons_ok hres
      -- the accumulated map decomposes around the new entry
      obtain ⟨new2, hdec⟩ := createTreeGo_mono
        (fun ids' K' acc' tm' roots' hh =>
          createTree_mono pkgsMap fuelT ids' K' acc' tm' roots' hh) _ _ _ _ _ hrest
      have hentmem : (joinSlash (K ++ [pkg.id]),
          mkNode pkg (joinSlash (K ++ [pkg.id])) children K.length) ∈ tmsub := by
        rw [hdec]
        simp
      have hlk : lookupLast tm (joinSlash (K ++ [pkg.id])) = some
          (mkNode pkg (joinSlash (K ++ [pkg.id])) children K.length) :=
        lookupLast_eq_of_mem_nodup hnd (hsub _ hentmem)
      cases fuelR with
      | zero => exact Except.noConfusion (by simpa only [resolvePeersOfNode] using hn)
      | succ fuelR =>
        obtain ⟨childNodes, hch⟩ := resolvePeersOfNode_ok_propsE hn hlk
        obtain ⟨peerNodes, childEntries, childWs, hpn, hgoC, hes1, hws1⟩ :=
          resolvePeersOfNode_ok_parts hn hlk hch
        have hchchildren : (mkNode pkg (joinSlash (K ++ [pkg.id])) children
            K.length).children = children := rfl
        rw [hchchildren] at hgoC
        have hsub1 : ∀ e ∈ tm1, e ∈ tm := by
          intro e he
          apply hsub
          rw [hdec]
          simp [he]
        obtain ⟨new1, htm1eq, hperm1⟩ := ihf _ _ _ _ _ hc hsub1 _ _ _ _ hgoC
        have hsub2 : ∀ e ∈ tmsub, e ∈ tm := hsub
        obtain ⟨new2', hacc2eq, hperm2⟩ := ihl _ _ _ _ hrest hsub2 _ _ _ _ hgo2
        refine ⟨new1 ++ [(joinSlash (K ++ [pkg.id]),
          mkNode pkg (joinSlash (K ++ [pkg.id])) children K.length)] ++ new2', ?_, ?_⟩
        · rw [hacc2eq, htm1eq]
          simp
        · rw [hent, hes1]
          simp only [List.map_append, List.map_cons]
          have hstep1 : (joinSlash (K ++ [pkg.id]) ::
                childEntries.map Prod.fst ++ es2.map Prod.fst).Perm
              (joinSlash (K ++ [pkg.id]) ::
                (new1.map Prod.fst ++ new2'.map Prod.fst)) := by
            rw [List.cons_append]
            exact List.Perm.cons _ (List.Perm.append hperm1 hperm2)
          have hstep2 : (new1.map Prod.fst ++ joinSlash (K ++ [pkg.id]) ::
              new2'.map Prod.fst).Perm (joinSlash (K ++ [pkg.id]) ::
                (new1.map Prod.fst ++ new2'.map Prod.fst)) :=
            List.perm_middle
          refine hstep1.trans (hstep2.symm.trans ?_)
          simp

/-- C8 (amended): provided the package map is well-formed, every package id
is nonempty and slash-free, the top-level id list is duplicate-free and every
dependency list is duplicate-free, a successful peer-resolution run produces
exactly one entry per keypath id created by the tree builder: the entry keys
are pairwise distinct (so the flat `R.merge` chain never overwrites an
earlier keypath id) and coincide with the tree map's keys. -/
theorem c8_resolved_map_amended (satisfies : String → String → Bool)
    (pkgsMap : LinkedPackagesMap) (topPkgIds : List String)
    (hwf : WFMap pkgsMap)
    (hgood : ∀ k ∈ pkgsMap.map Prod.fst, goodId k)
    (htop : topPkgIds.Nodup)
    (hdeps : ∀ e ∈ pkgsMap, e.2.dependencies.Nodup)
    (entries : ResolvedTreeMap) (ws : List Warning)
    (hrun : resolvePeersTop satisfies pkgsMap topPkgIds = .ok (entries, ws)) :
    ∃ tm roots,
      createTree pkgsMap (treeFuel pkgsMap) topPkgIds [] [] = .ok (tm, roots)
      ∧ (entries.map Prod.fst).Nodup
      ∧ ∀ k, k ∈ entries.map Prod.fst ↔ k ∈ tm.map Prod.fst := by
  rw [resolvePeersTop] at hrun
  cases hct : createTree pkgsMap (treeFuel pkgsMap) topPkgIds [] [] with
  | error e => exact Except.noConfusion (by simpa only [hct] using hrun)
  | ok pr =>
    rcases pr with ⟨tm, roots⟩
    simp only [hct] at hrun
    cases hpe : propsE tm roots with
    | error e => exact Except.noConfusion (by simpa only [hpe] using hrun)
    | ok rootNodes =>
      simp only [hpe] at hrun
      rw [resolvePeersOfNodeList] at hrun
      have hnd : (tm.map Prod.fst).Nodup :=
        (createTree_keys_nodup pkgsMap hwf hgood hdeps
          (treeFuel pkgsMap) topPkgIds [] [] tm roots hct htop
          (by intro x hx; exact absurd hx (List.not_mem_nil x))
          (by simp)
          (by intro k hk; exact absurd hk (List.not_mem_nil k))).1
      obtain ⟨new, htmeq, hperm⟩ := resolver_keys_perm pkgsMap satisfies tm hnd
        (treeFuel pkgsMap) topPkgIds [] [] tm roots hct (fun e he => he)
        (rpFuel tm) (toPkgByName rootNodes) entries ws hrun
      rw [List.nil_append] at htmeq
      subst htmeq
      exact ⟨tm, roots, rfl, hperm.nodup_iff.mpr hnd, fun k => hperm.mem_iff⟩

/-- A fixture package whose id doubles as its name. -/
def fixturePkg (i : String) (deps : List String) : LinkedPackage :=
  { id := i,
    pkg := { name := i, version := "1.0.0", peerDependencies := none,
             bundledDependencies := none, bundleDependencies := none },
    localLocation := "nm/." ++ i, path := "store/" ++ i, fetchingFiles := false,
    dependencies := deps }

/-- A package map with a keypath-join collision: the keypath `x`,`a/b` (a
dependency whose id contains a slash) and the keypath `x`,`a`,`b` both join
to the string `x/a/b`. -/
def collisionMap : LinkedPackagesMap :=
  [("x", fixturePkg "x" ["a/b", "a"]),
   ("a/b", fixturePkg "a/b" []),
   ("a", fixturePkg "a" ["b"]),
   ("b", fixturePkg "b" [])]

/-- Entries of the peer-resolution run on the collision map. -/
def collisionEntries : ResolvedTreeMap :=
  match resolvePeersTop (fun _ _ => true) collisionMap ["x"] with
  | .ok (es, _) => es
  | .error _ => []

/-- Warnings of the same run. -/
def collisionWs : List Warning :=
  match resolvePeersTop (fun _ _ => true) collisionMap ["x"] with
  | .ok (_, w) => w
  | .error _ => []

/-- C8 counterexample: on the collision map the keypath id `x/a/b` occurs
twice across the traversal — once for the dependency with id `a/b` and once
for `b` reached through `a` — so the flat merge overwrites an earlier keypath
id and the output does not have one entry per keypath id: the claim is false
as stated. -/
theorem c8_resolved_map_counterexample :
    resolvePeersTop (fun _ _ => true) collisionMap ["x"]
      = .ok (collisionEntries, collisionWs)
    ∧ (collisionEntries.map Prod.fst).count "x/a/b" = 2
    ∧ ¬ (collisionEntries.map Prod.fst).Nodup :=
  ⟨rfl, by decide, by decide⟩

/-- Entries of the peer-resolution run on the two-package cycle map. -/
def cycleEntries : ResolvedTreeMap :=
  match resolvePeersTop (fun _ _ => true) cycleMap ["a"] with
  | .ok (es, _) => es
  | .error _ => []

/-- Warnings of the same run. -/
def cycleWs : List Warning :=
  match resolvePeersTop (fun _ _ => true) cycleMap ["a"] with
  | .ok (_, w) => w
  | .error _ => []

/-- Closed witness for `c8_resolved_map_amended` on the cycle map, whose ids
are slash-free. -/
theorem c8_resolved_map_amended_witness :
    ∃ tm roots,
      createTree cycleMap (treeFuel cycleMap) ["a"] [] [] = .ok (tm, roots)
      ∧ (cycleEntries.map Prod.fst).Nodup
      ∧ ∀ k, k ∈ cycleEntries.map Prod.fst ↔ k ∈ tm.map Prod.fst :=
  c8_resolved_map_amended (fun _ _ => true) cycleMap ["a"]
    (WFMap_of_entries (by decide)) (by decide) (by decide) (by decide)
    cycleEntries cycleWs rfl

end PnpmLink
